import Mathlib

/-!
Verification development for the iReal Pro chart-protocol encoder of the
music-score-sk repository (src/notare/irealpro.py).  Python strings are
embedded as lists of characters, Python objects as structures whose fields
hold the attribute values the encoder reads (a read that may raise or
return a falsy value is an Option field), and each Python function is
translated into a Lean function of the same name (underscores dropped or
kept as the scanner allows).
-/

namespace Notare

/-- Character-list strings: the embedding renders Python str as List Char. -/
abbrev Str := List Char

/-- Python str.lower (ASCII portion, which is all the encoder compares). -/
def lowerStr (s : Str) : Str := s.map Char.toLower

/-- Python str.strip: drop leading and trailing whitespace. -/
def stripStr (s : Str) : Str :=
  ((s.dropWhile Char.isWhitespace).reverse.dropWhile Char.isWhitespace).reverse

/-- Test whether the second list starts with the first (Python str.startswith). -/
def leadsWith : Str → Str → Bool
  | [], _ => true
  | _ :: _, [] => false
  | p :: ps, c :: cs => p == c && leadsWith ps cs

/-- Python substring containment, pat in s. -/
def containsSub (pat : Str) : Str → Bool
  | [] => leadsWith pat []
  | c :: cs => leadsWith pat (c :: cs) || containsSub pat cs

/-- Python str.replace for a single-character pattern (used for '-' to 'b'
and for underscore-to-hyphen normalization). -/
def replaceChar (a b : Char) (s : Str) : Str :=
  s.map (fun c => if c = a then b else c)

/-- Fueled worker for the general replace; the fuel dominates the string
length so the exhaustion branch is never taken on the wrapper's calls. -/
def replaceSubF (pat rep : Str) : Nat → Str → Str
  | _, [] => []
  | 0, s => s
  | fuel + 1, c :: cs =>
    if pat ≠ [] ∧ leadsWith pat (c :: cs) then
      rep ++ replaceSubF pat rep fuel (cs.drop (pat.length - 1))
    else
      c :: replaceSubF pat rep fuel cs

/-- Python str.replace for a general non-empty pattern, leftmost
non-overlapping occurrences (used to drop the "barlinestyle." text). -/
def replaceSub (pat rep : Str) (s : Str) : Str := replaceSubF pat rep s.length s

/-- Order-preserving deduplication with an accumulator of seen tokens,
mirroring the repeated "if t not in seen/tokens: append" idiom. -/
def dedupAux (seen : List Str) : List Str → List Str
  | [] => []
  | t :: ts => if t ∈ seen then dedupAux seen ts else t :: dedupAux (t :: seen) ts

/-- Deduplicate a token list preserving first occurrences. -/
def dedupFirst (ts : List Str) : List Str := dedupAux [] ts

/-- Python " ".join. -/
def joinSp : List Str → Str
  | [] => []
  | [t] => t
  | t :: t2 :: ts => t ++ ' ' :: joinSp (t2 :: ts)

/-- Python s.split("="). -/
def splitEq : Str → List Str
  | [] => [[]]
  | c :: cs =>
    if c = '=' then [] :: splitEq cs
    else
      match splitEq cs with
      | [] => [[c]]
      | f :: r => (c :: f) :: r

/-- Python s.split() with no argument: split on whitespace runs, no empties. -/
def splitWs : Str → List Str
  | [] => []
  | c :: cs =>
    let r := splitWs cs
    if c.isWhitespace then r
    else
      match cs with
      | [] => [[c]]
      | d :: _ =>
        if d.isWhitespace then [c] :: r
        else
          match r with
          | [] => [[c]]
          | w :: ws => (c :: w) :: ws

/-! Percent encoding.  urllib.parse.quote with safe="" keeps exactly the
unreserved characters (ASCII letters, digits, underscore, dot, hyphen,
tilde) and writes every other character as the uppercase-hex %XX escapes
of its UTF-8 bytes; urllib.parse.unquote reverses this.  These functions
model that external stdlib behavior at the byte level. -/

/-- Uppercase hexadecimal digit for a value below 16. -/
def hexDig (n : Nat) : Char := if n < 10 then Char.ofNat (48 + n) else Char.ofNat (55 + n)

/-- UTF-8 byte sequence of a code point. -/
def utf8Bytes (n : Nat) : List Nat :=
  if n < 0x80 then [n]
  else if n < 0x800 then [0xC0 + n / 64, 0x80 + n % 64]
  else if n < 0x10000 then [0xE0 + n / 4096, 0x80 + n / 64 % 64, 0x80 + n % 64]
  else [0xF0 + n / 262144, 0x80 + n / 4096 % 64, 0x80 + n / 64 % 64, 0x80 + n % 64]

/-- Characters urllib.parse.quote never escapes (its always-safe set). -/
def isUnreserved (c : Char) : Bool :=
  c.isAlpha || c.isDigit || c == '_' || c == '.' || c == '-' || c == '~'

/-- Percent-encoding of one character as quote(s, safe="") renders it. -/
def encChar (c : Char) : Str :=
  if isUnreserved c then [c]
  else (utf8Bytes c.toNat).flatMap (fun b => ['%', hexDig (b / 16), hexDig (b % 16)])

/-- Percent-encoding of a whole string, quote(s, safe=""). -/
def pctEncode (s : Str) : Str := s.flatMap encChar

/-- Numeric value of a hexadecimal digit character. -/
def hexVal (c : Char) : Nat :=
  if 48 ≤ c.toNat ∧ c.toNat ≤ 57 then c.toNat - 48
  else if 65 ≤ c.toNat ∧ c.toNat ≤ 70 then c.toNat - 55
  else if 97 ≤ c.toNat ∧ c.toNat ≤ 102 then c.toNat - 87
  else 0

/-- Recognizer for hexadecimal digit characters. -/
def isHexDig (c : Char) : Bool :=
  (48 ≤ c.toNat && c.toNat ≤ 57) || (65 ≤ c.toNat && c.toNat ≤ 70) ||
    (97 ≤ c.toNat && c.toNat ≤ 102)

/-- Byte stream recovered by urllib.parse.unquote: a %XX escape becomes one
byte, any other character contributes its UTF-8 bytes, a stray percent sign
stays literal (byte 37), and after an invalid escape scanning resumes at the
character right after the percent sign. -/
def pctBytes : Str → List Nat
  | [] => []
  | c :: rest =>
    if c = '%' then
      match rest with
      | [] => [37]
      | [h1] => 37 :: utf8Bytes h1.toNat
      | h1 :: h2 :: rest2 =>
        if isHexDig h1 && isHexDig h2 then (16 * hexVal h1 + hexVal h2) :: pctBytes rest2
        else 37 :: pctBytes (h1 :: h2 :: rest2)
    else utf8Bytes c.toNat ++ pctBytes rest
termination_by s => s.length
decreasing_by all_goals (simp only [List.length_cons]; omega)

/-- Number of bytes of a UTF-8 sequence, from its lead byte. -/
def utf8Len (b : Nat) : Nat :=
  if b < 0x80 then 1 else if b < 0xE0 then 2 else if b < 0xF0 then 3 else 4

/-- Code point assembled from a lead byte and its continuation bytes. -/
def utf8Char (b : Nat) (args : List Nat) : Char :=
  if b < 0x80 then Char.ofNat b
  else if b < 0xE0 then Char.ofNat ((b - 0xC0) * 64 + (args.headD 0 - 0x80))
  else if b < 0xF0 then
    Char.ofNat ((b - 0xE0) * 4096 + (args.headD 0 - 0x80) * 64 + (args.getD 1 0 - 0x80))
  else
    Char.ofNat ((b - 0xF0) * 262144 + (args.headD 0 - 0x80) * 4096 +
      (args.getD 1 0 - 0x80) * 64 + (args.getD 2 0 - 0x80))

/-- UTF-8 decoding of a byte stream (total; malformed sequences give
arbitrary characters, which never arises on encoder output). -/
def utf8Decode : List Nat → Str
  | [] => []
  | b :: bs => utf8Char b (bs.take (utf8Len b - 1)) :: utf8Decode (bs.drop (utf8Len b - 1))
termination_by l => l.length
decreasing_by
  simp only [List.length_cons, List.length_drop]
  omega

/-- Percent-decoding of a string, urllib.parse.unquote. -/
def pctDecode (s : Str) : Str := utf8Decode (pctBytes s)

/-- Any character code point is below the unicode bound. -/
theorem charToNatLt (c : Char) : c.toNat < 1114112 := by
  have h := c.valid
  rcases h with h | ⟨_, h⟩ <;> simp only [Char.toNat] at * <;> omega

/-- Decoding the UTF-8 bytes of one character prepended to any byte stream
recovers that character. -/
theorem utf8Decode_utf8Bytes (c : Char) (bs : List Nat) :
    utf8Decode (utf8Bytes c.toNat ++ bs) = c :: utf8Decode bs := by
  have hlt := charToNatLt c
  by_cases h1 : c.toNat < 0x80
  · rw [utf8Bytes, if_pos h1, List.cons_append, List.nil_append, utf8Decode]
    have hk : utf8Len c.toNat - 1 = 0 := by simp [utf8Len, if_pos h1]
    rw [hk, List.take_zero, List.drop_zero, utf8Char, if_pos h1, Char.ofNat_toNat]
  · by_cases h2 : c.toNat < 0x800
    · have ha : ¬ (0xC0 + c.toNat / 64 < 0x80) := by omega
      have hb : 0xC0 + c.toNat / 64 < 0xE0 := by omega
      rw [utf8Bytes, if_neg h1, if_pos h2, List.cons_append, List.cons_append,
        List.nil_append, utf8Decode]
      have hk : utf8Len (0xC0 + c.toNat / 64) - 1 = 1 := by simp [utf8Len, if_neg ha, if_pos hb]
      rw [hk,
        show List.take 1 ((0x80 + c.toNat % 64) :: bs) = [0x80 + c.toNat % 64] from rfl,
        show List.drop 1 ((0x80 + c.toNat % 64) :: bs) = bs from rfl]
      rw [utf8Char, if_neg ha, if_pos hb]
      simp only [List.headD_cons]
      have hv : (0xC0 + c.toNat / 64 - 0xC0) * 64 + (0x80 + c.toNat % 64 - 0x80) = c.toNat := by
        omega
      rw [hv, Char.ofNat_toNat]
    · by_cases h3 : c.toNat < 0x10000
      · have ha : ¬ (0xE0 + c.toNat / 4096 < 0x80) := by omega
        have hb : ¬ (0xE0 + c.toNat / 4096 < 0xE0) := by omega
        have hc : 0xE0 + c.toNat / 4096 < 0xF0 := by omega
        rw [utf8Bytes, if_neg h1, if_neg h2, if_pos h3, List.cons_append, List.cons_append,
          List.cons_append, List.nil_append, utf8Decode]
        have hk : utf8Len (0xE0 + c.toNat / 4096) - 1 = 2 := by
          simp [utf8Len, if_neg ha, if_neg hb, if_pos hc]
        rw [hk,
          show List.take 2 ((0x80 + c.toNat / 64 % 64) :: (0x80 + c.toNat % 64) :: bs) =
            [0x80 + c.toNat / 64 % 64, 0x80 + c.toNat % 64] from rfl,
          show List.drop 2 ((0x80 + c.toNat / 64 % 64) :: (0x80 + c.toNat % 64) :: bs) = bs
            from rfl]
        rw [utf8Char, if_neg ha, if_neg hb, if_pos hc]
        simp only [List.headD_cons, List.getD_cons_succ, List.getD_cons_zero]
        have hv : (0xE0 + c.toNat / 4096 - 0xE0) * 4096 + (0x80 + c.toNat / 64 % 64 - 0x80) * 64 +
            (0x80 + c.toNat % 64 - 0x80) = c.toNat := by omega
        rw [hv, Char.ofNat_toNat]
      · have ha : ¬ (0xF0 + c.toNat / 262144 < 0x80) := by omega
        have hb : ¬ (0xF0 + c.toNat / 262144 < 0xE0) := by omega
        have hc : ¬ (0xF0 + c.toNat / 262144 < 0xF0) := by omega
        rw [utf8Bytes, if_neg h1, if_neg h2, if_neg h3, List.cons_append, List.cons_append,
          List.cons_append, List.cons_append, List.nil_append, utf8Decode]
        have hk : utf8Len (0xF0 + c.toNat / 262144) - 1 = 3 := by
          simp [utf8Len, if_neg ha, if_neg hb, if_neg hc]
        rw [hk,
          show List.take 3 ((0x80 + c.toNat / 4096 % 64) :: (0x80 + c.toNat / 64 % 64) ::
              (0x80 + c.toNat % 64) :: bs) =
            [0x80 + c.toNat / 4096 % 64, 0x80 + c.toNat / 64 % 64, 0x80 + c.toNat % 64] from rfl,
          show List.drop 3 ((0x80 + c.toNat / 4096 % 64) :: (0x80 + c.toNat / 64 % 64) ::
              (0x80 + c.toNat % 64) :: bs) = bs from rfl]
        rw [utf8Char, if_neg ha, if_neg hb, if_neg hc]
        simp only [List.headD_cons, List.getD_cons_succ, List.getD_cons_zero]
        have hv : (0xF0 + c.toNat / 262144 - 0xF0) * 262144 +
            (0x80 + c.toNat / 4096 % 64 - 0x80) * 4096 +
            (0x80 + c.toNat / 64 % 64 - 0x80) * 64 + (0x80 + c.toNat % 64 - 0x80) = c.toNat := by
          omega
        rw [hv, Char.ofNat_toNat]

/-- Hex digits produced by hexDig are recognized as hex digits. -/
theorem isHexDig_hexDig (n : Nat) (h : n < 16) : isHexDig (hexDig n) = true := by
  interval_cases n <;> decide

/-- Hex digits produced by hexDig decode to their value. -/
theorem hexVal_hexDig (n : Nat) (h : n < 16) : hexVal (hexDig n) = n := by
  interval_cases n <;> decide

/-- Every UTF-8 byte of a valid code point fits in one byte. -/
theorem utf8Bytes_lt (n : Nat) (hn : n < 1114112) : ∀ b ∈ utf8Bytes n, b < 256 := by
  intro b hb
  unfold utf8Bytes at hb
  split at hb
  · simp only [List.mem_singleton] at hb
    omega
  · split at hb
    · simp only [List.mem_cons, List.mem_singleton, List.not_mem_nil, or_false] at hb
      rcases hb with rfl | rfl <;> omega
    · split at hb
      · simp only [List.mem_cons, List.mem_singleton, List.not_mem_nil, or_false] at hb
        rcases hb with rfl | rfl | rfl <;> omega
      · simp only [List.mem_cons, List.mem_singleton, List.not_mem_nil, or_false] at hb
        rcases hb with rfl | rfl | rfl | rfl <;> omega

/-- The percent triple of one byte parses back to that byte. -/
theorem pctBytes_triple (b : Nat) (hb : b < 256) (tl : Str) :
    pctBytes ('%' :: hexDig (b / 16) :: hexDig (b % 16) :: tl) = b :: pctBytes tl := by
  have h1 : b / 16 < 16 := by omega
  have h2 : b % 16 < 16 := by omega
  rw [pctBytes.eq_def]
  simp only [if_pos rfl, isHexDig_hexDig _ h1, isHexDig_hexDig _ h2, Bool.and_self, if_true,
    hexVal_hexDig _ h1, hexVal_hexDig _ h2]
  have : 16 * (b / 16) + b % 16 = b := by omega
  rw [this]

/-- Parsing the percent triples of a byte list prepended to a tail. -/
theorem pctBytes_triples (bs : List Nat) (hbs : ∀ b ∈ bs, b < 256) (tl : Str) :
    pctBytes ((bs.flatMap (fun b => ['%', hexDig (b / 16), hexDig (b % 16)])) ++ tl) =
      bs ++ pctBytes tl := by
  induction bs with
  | nil => simp
  | cons b rest ih =>
    have hb : b < 256 := hbs b (List.mem_cons_self b rest)
    have hrest : ∀ x ∈ rest, x < 256 := fun x hx => hbs x (List.mem_cons_of_mem b hx)
    simp only [List.flatMap_cons, List.append_assoc, List.cons_append, List.nil_append]
    rw [pctBytes_triple b hb, ih hrest]

/-- Unreserved characters are never the percent sign. -/
theorem isUnreserved_ne_pct (c : Char) (h : isUnreserved c = true) : ¬ (c = '%') := by
  intro hc
  subst hc
  simp [isUnreserved] at h

/-- Byte recovery of one encoded character prepended to any string. -/
theorem pctBytes_encChar (c : Char) (s : Str) :
    pctBytes (encChar c ++ s) = utf8Bytes c.toNat ++ pctBytes s := by
  by_cases h : isUnreserved c
  · have hne : ¬ (c = '%') := isUnreserved_ne_pct c h
    rw [encChar, if_pos h, List.cons_append, List.nil_append, pctBytes.eq_def]
    simp only [if_neg hne]
  · rw [encChar, if_neg h]
    exact pctBytes_triples _ (utf8Bytes_lt _ (charToNatLt c)) s

/-- Percent decoding inverts percent encoding. -/
theorem pctDecode_pctEncode (s : Str) : pctDecode (pctEncode s) = s := by
  induction s with
  | nil => simp [pctDecode, pctEncode, pctBytes, utf8Decode]
  | cons c cs ih =>
    show utf8Decode (pctBytes (encChar c ++ pctEncode cs)) = c :: cs
    rw [pctBytes_encChar, utf8Decode_utf8Bytes]
    exact congrArg (c :: ·) ih

/-! Data model: the attribute values the encoder reads from the music21
score tree.  A read wrapped in try/except that raises, or that yields a
falsy value where the code tests truthiness, is recorded as none (or as the
empty string where the code itself substitutes ""). -/

/-- Time signature with the integer numerator and denominator the encoder
formats. -/
structure TimeSig where
  num : Nat
  den : Nat
deriving DecidableEq

/-- Token text of a time signature, f-string "T{num}{den}". -/
def tsTok (t : TimeSig) : Str :=
  'T' :: (toString t.num).toList ++ (toString t.den).toList

/-- Attribute values read from a music21 ChordSymbol in _measure_chords
(irealpro.py 95-142): figure is getattr(el, "figure", None) or "";
rootName is el.root().name, none when the root is absent or unnamed (the
fallback f-string then raises on .name and yields no token, and the bass
block sees root_name None); kind is getattr(el, "kind", None) or "";
modifierText is the resolved getattr(kind_obj, "text", None) or
getattr(el, "kindText", None); bassName is el.bass().name, none when the
bass is absent or unnamed. -/
structure ChordSymbol where
  figure : Str
  rootName : Option Str
  kind : Str
  modifierText : Option Str
  bassName : Option Str
deriving DecidableEq

/-- Truthiness filter for an optional string attribute. -/
def truthyO : Option Str → Option Str
  | some s => if s = [] then none else some s
  | none => none

/-- Token for one ChordSymbol (irealpro.py 96-142): normalized figure or
root-plus-quality fallback, then the kind-text modifier when not already a
substring, then a slash bass when the bass differs from the root; none when
the token stays falsy. -/
def symbolToken (cs : ChordSymbol) : Option Str :=
  let fig := stripStr cs.figure
  let token0 : Option Str :=
    if fig ≠ [] then some (replaceChar '-' 'b' fig)
    else
      match cs.rootName with
      | some r => some (stripStr (r ++ cs.kind))
      | none => none
  let token0 : Option Str :=
    match token0 with
    | some [] => none
    | t => t
  let token1 : Option Str :=
    match token0, truthyO cs.modifierText with
    | some tk, some m =>
      let mod := stripStr m
      if mod ≠ [] ∧ containsSub mod tk = false then some (tk ++ ' ' :: mod)
      else some tk
    | t, _ => t
  let token2 : Option Str :=
    match token1, cs.bassName with
    | some tk, some bn =>
      let rootN : Option Str :=
        match cs.rootName with
        | some r => if r = [] then none else some (replaceChar '-' 'b' r)
        | none => none
      let bassN := replaceChar '-' 'b' bn
      if bn = [] then some tk
      else if containsSub ['/'] tk then some tk
      else if rootN = none ∨ lowerStr bassN ≠ lowerStr (rootN.getD []) then
        some (tk ++ '/' :: bassN)
      else some tk
    | t, _ => t
  token2

/-- Attribute values read from a stacked-note music21 Chord
(irealpro.py 155-183); falsy or raising reads are none. -/
structure StackedChord where
  rootName : Option Str
  rootNoteName : Option Str
  lowestName : Option Str
deriving DecidableEq

/-- Root token for one stacked chord: root(), then the rootNote attribute,
then the lowest pitch after ascending sort; none when all are unavailable. -/
def stackedToken (c : StackedChord) : Option Str :=
  match truthyO c.rootName with
  | some n => some n
  | none =>
    match truthyO c.rootNoteName with
    | some n => some n
    | none => truthyO c.lowestName

/-- Text attribute values of one element visited by measure.recurse():
content, text, mark, words in probe order, plus the str() fallback used by
the staff-text scan. -/
structure TextEl where
  content : Option Str
  text : Option Str
  mark : Option Str
  words : Option Str
  strRepr : Str
deriving DecidableEq

/-- Attribute values read from a music21 Barline or Repeat object: style,
location and direction rendered to text (none when absent), the direction
of a nested repeat object, and str(getattr(rb, "type", "")) used by the
synthetic-endings stop rule. -/
structure BarlineInfo where
  style : Option Str
  location : Option Str
  direction : Option Str
  repeatDirection : Option Str
  btype : Str
deriving DecidableEq

/-- Everything the encoder reads from one measure.  barlineEls and
repeatEls are the generic elements getElementsByClass would list;
leftBarline and rightBarline the explicit measure attributes. -/
structure Measure where
  chordSymbols : List ChordSymbol
  chords : List StackedChord
  timeSig : Option TimeSig
  rehearsalLabel : Option Str
  textEls : List TextEl
  barlineEls : List BarlineInfo
  repeatEls : List BarlineInfo
  leftBarline : Option BarlineInfo
  rightBarline : Option BarlineInfo
deriving DecidableEq

/-- Chord tokens of a measure (irealpro.py 85-184): chord-symbol tokens
exclusively when any symbol yields one, else stacked-chord root tokens with
flats normalized; both deduplicated preserving first occurrences. -/
def measureChords (m : Measure) : List Str :=
  let symbolTokens := m.chordSymbols.filterMap symbolToken
  if symbolTokens ≠ [] then dedupFirst symbolTokens
  else dedupFirst (m.chords.filterMap (fun c => (stackedToken c).map (replaceChar '-' 'b')))

/-- Candidate label texts of a measure: every truthy content/text/mark/words
attribute over the recursed elements, in probe order (irealpro.py 239-251,
duplicated by the pre-scan at 416-428). -/
def candidates (m : Measure) : List Str :=
  m.textEls.flatMap (fun e => [e.content, e.text, e.mark, e.words].filterMap truthyO)

/-- First candidate whose stripped text starts with an ending digit. -/
def endingOfCandidates : List Str → Option Str
  | [] => none
  | c :: rest =>
    if leadsWith ['1'] (stripStr c) then some ['N', '1']
    else if leadsWith ['2'] (stripStr c) then some ['N', '2']
    else if leadsWith ['3'] (stripStr c) then some ['N', '3']
    else endingOfCandidates rest

/-- Explicit ending token of a measure (irealpro.py 237-260). -/
def endingToken (m : Measure) : Option Str := endingOfCandidates (candidates m)

/-- Pre-scan ending detection (irealpro.py 426-430), the duplicated
lightweight form of the ending heuristic. -/
def endingFires (m : Measure) : Bool :=
  (candidates m).any (fun c =>
    leadsWith ['1'] (stripStr c) || leadsWith ['2'] (stripStr c) ||
      leadsWith ['3'] (stripStr c))

/-- Rehearsal token of a measure (irealpro.py 221-235): star plus the
uppercased first letter of the first mark's label, none when the label is
empty or starts with a non-letter. -/
def rehearsalToken (m : Measure) : Option Str :=
  match m.rehearsalLabel with
  | none => none
  | some raw =>
    match stripStr raw with
    | [] => none
    | ch :: _ =>
      if ch.toUpper.isAlpha then some ['*', ch.toUpper] else none

/-- The staff-text phrase table of irealpro.py 264-275, in insertion
order. -/
def recognizedPhrases : List (Str × Str) :=
  [ ("D.C. al Fine".toList, "<D.C. al Fine>".toList),
    ("DC al Fine".toList, "<D.C. al Fine>".toList),
    ("D.C. al Coda".toList, "<D.C. al Coda>".toList),
    ("DC al Coda".toList, "<D.C. al Coda>".toList),
    ("D.S. al Fine".toList, "<D.S. al Fine>".toList),
    ("DS al Fine".toList, "<D.S. al Fine>".toList),
    ("D.S. al Coda".toList, "<D.S. al Coda>".toList),
    ("DS al Coda".toList, "<D.S. al Coda>".toList),
    ("Fine".toList, "<Fine>".toList),
    ("Coda".toList, "<Coda>".toList) ]

/-- First truthy attribute of a list of optional strings. -/
def firstTruthy : List (Option Str) → Option Str
  | [] => none
  | o :: rest =>
    match truthyO o with
    | some s => some s
    | none => firstTruthy rest

/-- Text content one element contributes to the staff-text scan: the first
truthy attribute, else the str() form (irealpro.py 279-295). -/
def staffContent (e : TextEl) : Option Str :=
  match firstTruthy [e.content, e.text, e.mark, e.words] with
  | some s => some s
  | none => if e.strRepr = [] then none else some e.strRepr

/-- Staff-text cue tokens of a measure (irealpro.py 262-309):
case-insensitive substring matches of the phrase table against every
element's content, collected in discovery-then-table order, deduplicated. -/
def staffTextTokens (m : Measure) : List Str :=
  let toks := m.textEls.flatMap (fun e =>
    match staffContent e with
    | none => []
    | some content =>
      let lc := lowerStr content
      recognizedPhrases.filterMap (fun kv =>
        if containsSub (lowerStr kv.1) lc then some kv.2 else none))
  dedupFirst toks

/-- Lowered text of an optional attribute, _norm_lower (irealpro.py
345-362) with the enum name/value preference collapsed into the recorded
string. -/
def normLower (o : Option Str) : Str := lowerStr (o.getD [])

/-- Style normalization _norm_style (irealpro.py 363-368). -/
def normStyle (s : Str) : Str :=
  replaceChar '_' '-' (replaceSub "barlinestyle.".toList [] s)

/-- Location normalization _norm_location (irealpro.py 369-372). -/
def normLocation (l : Str) : Str := replaceSub "barlinelocation.".toList [] l

/-- Repeat-open token (left brace). -/
def openRep : Str := ['\x7b']

/-- Repeat-close token (right brace). -/
def closeRep : Str := ['\x7d']

/-- Double-bar open token. -/
def openDbl : Str := ['[']

/-- Double-bar close token. -/
def closeDbl : Str := [']']

/-- Bar separator token. -/
def barSep : Str := ['|']

/-- Final bar token. -/
def finalBar : Str := ['Z']

/-- Barline-derived prefix and suffix tokens (irealpro.py 311-407).  The
collection loop over generic Barline/Repeat elements (lines 322-326) calls
the nested helper _norm_lower before the def statement that binds it has
executed, so its first iteration raises UnboundLocalError which the
surrounding except swallows; generic elements therefore never reach the
token rules, and only the explicit leftBarline/rightBarline attributes
(appended with their location hints at lines 340-343) are inspected. -/
def barStep (acc : List Str × List Str) (br : BarlineInfo × Str) : List Str × List Str :=
  let bl := br.1
  let style := normStyle (normLower bl.style)
  let loc := normLocation (if br.2 ≠ [] then br.2 else normLower bl.location)
  let rd0 := normLower bl.direction
  let repeatDir := if rd0 = [] then normLower bl.repeatDirection else rd0
  let pre1 :=
    if loc = "left".toList ∧
        (repeatDir = "forward".toList ∨ repeatDir = "start".toList ∨
          style = "heavy-light".toList) ∧ openRep ∉ acc.1 then
      acc.1 ++ [openRep]
    else acc.1
  let pre2 :=
    if loc = "left".toList ∧ style = "light-light".toList ∧ openDbl ∉ pre1 then
      pre1 ++ [openDbl]
    else pre1
  let post1 :=
    if loc = "right".toList ∧
        (repeatDir = "backward".toList ∨ repeatDir = "end".toList ∨
          style = "light-heavy".toList) ∧ closeRep ∉ acc.2 then
      acc.2 ++ [closeRep]
    else acc.2
  let post2 :=
    if loc = "right".toList ∧ style = "light-light".toList ∧ closeDbl ∉ post1 then
      post1 ++ [closeDbl]
    else post1
  (pre2, post2)

def barlineTokens (m : Measure) : List Str × List Str :=
  let bars : List (BarlineInfo × Str) :=
    (match m.leftBarline with
     | some lb => [(lb, "left".toList)]
     | none => []) ++
    (match m.rightBarline with
     | some rb => [(rb, "right".toList)]
     | none => [])
  bars.foldl barStep ([], [])

/-- Time-signature token of a measure, _ts_for_measure (irealpro.py
209-219). -/
def tsForMeasure (m : Measure) : Option Str := m.timeSig.map tsTok

/-- Indices of measures whose ending heuristic fires (pre-scan,
irealpro.py 410-448). -/
def endingIndices (ms : List Measure) : List Nat :=
  (ms.enum.filter (fun im => endingFires im.2)).map (fun im => im.1)

/-- Backward-repeat hit test of the pre-scan (irealpro.py 434-440):
str-lowered direction in end/backward and location right. -/
def repScanHit (r : BarlineInfo) : Bool :=
  let d := lowerStr (r.direction.getD [])
  let l := lowerStr (r.location.getD [])
  (d == "end".toList || d == "backward".toList) && l == "right".toList

/-- Index of the first measure holding a backward Repeat element, or -1
(irealpro.py 411, 431-442). -/
def backwardRepeatIndex (ms : List Measure) : Int :=
  match (ms.enum.filter (fun im => im.2.repeatEls.any repScanHit)).head? with
  | some im => (im.1 : Int)
  | none => -1

/-- Stop rule of the synthetic-endings builder (irealpro.py 464-470): a
right barline whose lowered type text contains "final". -/
def synthStop (m : Measure) : Bool :=
  match m.rightBarline with
  | some rb => containsSub "final".toList (lowerStr rb.btype)
  | none => false

/-- Worker of the synthetic-endings builder, walking the measure suffix
while carrying the absolute index j and the counter n. -/
def synthLoopAux : List Measure → Nat → Nat → List (Nat × Str)
  | [], _, _ => []
  | m :: rest, j, n =>
    (j, 'N' :: (toString n).toList) ::
      (if synthStop m then [] else synthLoopAux rest (j + 1) (n + 1))

/-- Synthetic ending tokens N1, N2, ... assigned from index j onward,
stopping at (and including) the first final right barline
(irealpro.py 458-472). -/
def synthLoop (ms : List Measure) (j n : Nat) : List (Nat × Str) :=
  synthLoopAux (ms.drop j) j n

/-- Synthetic endings map: built only when no explicit ending text exists
but a backward repeat does (irealpro.py 456-472). -/
def syntheticEndings (ms : List Measure) : List (Nat × Str) :=
  if endingIndices ms = [] ∧ backwardRepeatIndex ms ≥ 0 then
    synthLoop ms ((backwardRepeatIndex ms).toNat + 1) 1
  else []

/-- Mutable state threaded through the measure loop: the last emitted
time-signature token and the two repeat-bracket flags. -/
structure MState where
  lastTs : Option Str
  fwd : Bool
  bwd : Bool
deriving DecidableEq

/-- Time-signature change line of one measure (irealpro.py 476-479). -/
def hdrTs (st : MState) (m : Measure) : List Str :=
  match tsForMeasure m with
  | some t => if some t ≠ st.lastTs then [t] else []
  | none => []

/-- New last-emitted time signature after one measure; when the measure's
signature equals the carried one the assignment is skipped but the value is
unchanged either way. -/
def nextTs (st : MState) (m : Measure) : Option Str :=
  match tsForMeasure m with
  | some t => some t
  | none => st.lastTs

/-- Rehearsal line of one measure. -/
def rehList (m : Measure) : List Str :=
  match rehearsalToken m with
  | some r => [r]
  | none => []

/-- Ending line of one measure: the explicit token, else the synthetic map
entry (irealpro.py 485-489). -/
def hdrEndList (synth : List (Nat × Str)) (idx : Nat) (m : Measure) : List Str :=
  match
    (match endingToken m with
     | some e => some e
     | none => List.lookup idx synth) with
  | some e => [e]
  | none => []

/-- Header tokens of one measure, in emission order: time-signature change,
rehearsal, ending, staff texts (irealpro.py 476-493). -/
def headerToks (synth : List (Nat × Str)) (idx : Nat) (st : MState) (m : Measure) : List Str :=
  hdrTs st m ++ rehList m ++ hdrEndList synth idx m ++ staffTextTokens m

/-- Forward-repeat flag after noting this measure's own barline prefix
(irealpro.py 497-498). -/
def fwdAfterBars (st : MState) (m : Measure) : Bool :=
  st.fwd || (barlineTokens m).1.contains openRep

/-- Backward-repeat flag after noting this measure's own barline suffix
(irealpro.py 499-500). -/
def bwdAfterBars (st : MState) (m : Measure) : Bool :=
  st.bwd || (barlineTokens m).2.contains closeRep

/-- Prefix tokens after the fallback forward repeat (irealpro.py 503-505):
a brace is appended on the first measure when endings exist and no forward
repeat has been seen. -/
def preToks (fb : Bool) (idx : Nat) (st : MState) (m : Measure) : List Str :=
  if fb ∧ fwdAfterBars st m = false ∧ idx = 0 then (barlineTokens m).1 ++ [openRep]
  else (barlineTokens m).1

/-- Forward flag leaving the measure. -/
def fwdNext (fb : Bool) (idx : Nat) (st : MState) (m : Measure) : Bool :=
  if fb ∧ fwdAfterBars st m = false ∧ idx = 0 then true else fwdAfterBars st m

/-- Suffix tokens after the fallback backward repeat (irealpro.py 507-509):
a closing brace is appended on the measure before the first ending when
endings exist and no backward repeat has been seen. -/
def postToks (fb : Bool) (fei : Int) (idx : Nat) (st : MState) (m : Measure) : List Str :=
  if fb ∧ bwdAfterBars st m = false ∧ 1 ≤ fei ∧ (idx : Int) = fei - 1 then
    (barlineTokens m).2 ++ [closeRep]
  else (barlineTokens m).2

/-- Backward flag leaving the measure. -/
def bwdNext (fb : Bool) (fei : Int) (idx : Nat) (st : MState) (m : Measure) : Bool :=
  if fb ∧ bwdAfterBars st m = false ∧ 1 ≤ fei ∧ (idx : Int) = fei - 1 then true
  else bwdAfterBars st m

/-- Chord group of one measure: the space-joined chord tokens as a single
line, or nothing (irealpro.py 514-518). -/
def chordPart (m : Measure) : List Str :=
  if measureChords m ≠ [] then [joinSp (measureChords m)] else []

/-- Tokens one measure contributes and the state it leaves behind
(irealpro.py 474-524), in the source's emission order: header, prefix
barline tokens with the fallback forward repeat, the chord group, the bar
separator, and the suffix barline tokens with the fallback backward
repeat. -/
def measureBlock (fb : Bool) (fei : Int) (synth : List (Nat × Str)) (idx : Nat)
    (st : MState) (m : Measure) : List Str × MState :=
  (headerToks synth idx st m ++ preToks fb idx st m ++ chordPart m ++ [barSep] ++
      postToks fb fei idx st m,
    ⟨nextTs st m, fwdNext fb idx st m, bwdNext fb fei idx st m⟩)

/-- The measure loop of _build_progression, emitting each measure's block
in order while threading the state. -/
def progLoop (fb : Bool) (fei : Int) (synth : List (Nat × Str)) :
    Nat → MState → List Measure → List Str
  | _, _, [] => []
  | idx, st, m :: rest =>
    let r := measureBlock fb fei synth idx st m
    r.1 ++ progLoop fb fei synth (idx + 1) r.2 rest

/-- A part: its measure list, an optional time signature sitting directly
in the part stream before the measures, and stacked chords lying directly
in the part stream outside any measure (these count for the recursing
chord-existence check). -/
structure Part where
  partTS : Option TimeSig
  measures : List Measure
  looseChords : List StackedChord
deriving DecidableEq

/-- First time-signature token found by recursing the part,
_detect_time_signature (irealpro.py 51-64): a signature directly in the
part stream, else the first signature inside the measures in document
order. -/
def detectTimeSignature (p : Part) : Option Str :=
  match p.partTS with
  | some t => some (tsTok t)
  | none => ((p.measures.filterMap (fun m => m.timeSig)).head?).map tsTok

/-- Token list assembled by _build_progression before the final-bar
rewrite: the initial time-signature line plus the per-measure blocks,
with the pre-scan products fixed up front. -/
def mainLines (p : Part) : List Str :=
  let initTs := detectTimeSignature p
  let ms := p.measures
  let fb := endingIndices ms ≠ []
  let fei : Int :=
    match (endingIndices ms).head? with
    | some i => (i : Int)
    | none => -1
  let synth := syntheticEndings ms
  (match initTs with
   | some t => [t]
   | none => []) ++ progLoop fb fei synth 0 ⟨initTs, false, false⟩ ms

/-- Replacement of the first bar separator in a reversed line list. -/
def replaceFirstBar : List Str → Option (List Str)
  | [] => none
  | l :: ls =>
    if l = barSep then some (finalBar :: ls)
    else (replaceFirstBar ls).map (fun r => l :: r)

/-- Final-bar rewrite (irealpro.py 526-537): on a non-empty line list the
last bar separator becomes Z, or Z is appended when no separator exists at
all; an empty line list is returned unchanged because the whole rewrite is
guarded by "if lines:". -/
def finalizeLines (lines : List Str) : List Str :=
  if lines.isEmpty then lines
  else
    match replaceFirstBar lines.reverse with
    | some r => r.reverse
    | none => lines ++ [finalBar]

/-- Token list of the finished progression. -/
def progressionTokens (p : Part) : List Str := finalizeLines (mainLines p)

/-- Progression string returned by _build_progression (irealpro.py 538). -/
def buildProgression (p : Part) : Str := stripStr (joinSp (progressionTokens p))

/-! Chart URL builder (irealpro.py 29-48, 67-82, 541-640). -/

/-- Title normalization _title_for_ireal (irealpro.py 29-36). -/
def titleForIreal (title : Str) : Str :=
  let t := stripStr title
  if t = [] then "Untitled".toList
  else if leadsWith "the ".toList (lowerStr t) then (t.drop 4) ++ ", The".toList
  else t

/-- Composer normalization _composer_last_first (irealpro.py 39-48). -/
def composerLastFirst (composer : Str) : Str :=
  let name := stripStr composer
  if name = [] then "Unknown".toList
  else
    match splitWs name with
    | [] => "Unknown".toList
    | [w] => w
    | w :: w2 :: rest =>
      let ws := w :: w2 :: rest
      stripStr (ws.getLastD [] ++ ' ' :: joinSp ws.dropLast)

/-- Key token _detect_key_token (irealpro.py 67-82); keyName records
getattr(k, "name", "") or "" with none for an analysis failure or falsy
name.  The music21 key object's name is always "<tonic> <mode>", so the
first word always exists; the model returns the bare suffix in the dead
whitespace-only corner where the source would raise IndexError. -/
def detectKeyToken (keyName : Option Str) : Str :=
  match keyName with
  | none => ['C']
  | some raw =>
    if raw = [] then ['C']
    else
      let name := stripStr raw
      let isMinor := containsSub "minor".toList (lowerStr name)
      let tonic := replaceChar '-' 'b' ((splitWs name).headD [])
      if isMinor then tonic ++ ['-'] else tonic

/-- Score metadata: optional title and composer strings. -/
structure Metadata where
  title : Option Str
  composer : Option Str
deriving DecidableEq

/-- A score: its parts, the score itself viewed as a single stream (used as
the target when parts is empty), its metadata, and the name of the
analyze("key") result (none when analysis raises or the name is falsy). -/
structure Score where
  parts : List Part
  selfPart : Part
  metadata : Option Metadata
  keyName : Option Str
deriving DecidableEq

/-- Candidate streams: list(score.parts) or [score]
(irealpro.py 555, 616). -/
def targets (s : Score) : List Part :=
  if s.parts = [] then [s.selfPart] else s.parts

/-- Chord-existence test for one part: isinstance(el, Chord) over the
recursed elements (irealpro.py 559, 620); music21 ChordSymbol subclasses
Chord, so chord symbols count too. -/
def partHasChords (p : Part) : Bool :=
  !p.looseChords.isEmpty ||
    p.measures.any (fun m => !m.chords.isEmpty || !m.chordSymbols.isEmpty)

/-- The title string read from metadata, getattr(meta, "title", None)
or "". -/
def metaTitle (s : Score) : Str :=
  match s.metadata with
  | some md => md.title.getD []
  | none => []

/-- The composer string read from metadata. -/
def metaComposer (s : Score) : Str :=
  match s.metadata with
  | some md => md.composer.getD []
  | none => []

/-- The no-chords error message. -/
def noChordsMsg : Str := "No chords found in the score.".toList

/-- Style normalization (style or "Unknown").strip() or "Unknown"
(irealpro.py 572, 632). -/
def styleText (style : Option Str) : Str :=
  let s0 :=
    match style with
    | some s => if s = [] then "Unknown".toList else s
    | none => "Unknown".toList
  let s1 := stripStr s0
  if s1 = [] then "Unknown".toList else s1

/-- The raw chart URL assembled for a selected part (irealpro.py 580,
640). -/
def rawUrlStr (s : Score) (style : Option Str) (p : Part) : Str :=
  "irealbook://".toList ++ titleForIreal (metaTitle s) ++
    '=' :: composerLastFirst (metaComposer s) ++
    '=' :: styleText style ++
    '=' :: detectKeyToken s.keyName ++
    "=n=".toList ++ buildProgression p

/-- score_to_irealpro_raw_url (irealpro.py 607-640): select the first part
with chords, fail when none exists or the progression is empty, else return
the raw URL. -/
def scoreToIrealproRawUrl (s : Score) (style : Option Str) : Except Str Str :=
  match (targets s).find? partHasChords with
  | none => Except.error noChordsMsg
  | some p =>
    if buildProgression p = [] then Except.error noChordsMsg
    else Except.ok (rawUrlStr s style p)

/-- score_to_irealpro_url (irealpro.py 541-581): the same selection and
failure rule, returning quote(raw_url, safe=""). -/
def scoreToIrealproUrl (s : Score) (style : Option Str) : Except Str Str :=
  match (targets s).find? partHasChords with
  | none => Except.error noChordsMsg
  | some p =>
    if buildProgression p = [] then Except.error noChordsMsg
    else Except.ok (pctEncode (rawUrlStr s style p))

/-- html.escape with quote enabled; the source applies the five replaces
sequentially starting with the ampersand, which equals this character-wise
expansion because the later replacements never introduce characters the
remaining replaces touch. -/
def htmlEscape (s : Str) : Str :=
  s.flatMap (fun c =>
    if c = '&' then "&amp;".toList
    else if c = '<' then "&lt;".toList
    else if c = '>' then "&gt;".toList
    else if c = '\"' then "&quot;".toList
    else if c = Char.ofNat 39 then "&#x27;".toList
    else [c])

/-- score_to_irealpro_html_link (irealpro.py 584-604): build the encoded
URL, percent-decode it, strip the protocol, take the text before the first
equals sign (or "Untitled" when empty), and wrap an anchor tag. -/
def scoreToIrealproHtmlLink (s : Score) (style : Option Str) : Except Str Str :=
  match scoreToIrealproUrl s style with
  | Except.error e => Except.error e
  | Except.ok url =>
    let decoded := pctDecode url
    let payload := decoded.drop ("irealbook://".toList).length
    let title0 := payload.takeWhile (fun c => c ≠ '=')
    let title := if title0 = [] then "Untitled".toList else title0
    Except.ok ("<a href=\"".toList ++ url ++ "\">".toList ++ htmlEscape title ++ "</a>".toList)

/-! Generic lemmas about the string and token utilities. -/

/-- Bar-separator-or-final-bar recognizer. -/
def isBarish (t : Str) : Bool := t == barSep || t == finalBar

/-- Count of tokens equal to a given token. -/
def countTok (x : Str) (ts : List Str) : Nat := ts.countP (fun t => t == x)

/-- A list containing the bar separator has a bar to replace. -/
theorem replaceFirstBar_of_mem {r : List Str} (h : barSep ∈ r) :
    ∃ r', replaceFirstBar r = some r' := by
  induction r with
  | nil => cases h
  | cons l ls ih =>
    by_cases hl : l = barSep
    · exact ⟨finalBar :: ls, by simp [replaceFirstBar, hl]⟩
    · have hm : barSep ∈ ls := by
        rcases List.mem_cons.mp h with h1 | h1
        · exact absurd h1.symm hl
        · exact h1
      obtain ⟨r', hr⟩ := ih hm
      exact ⟨l :: r', by simp [replaceFirstBar, hl, hr]⟩

/-- Replacing a bar by the final bar preserves any count that does not
distinguish the two. -/
theorem replaceFirstBar_countP {r r' : List Str} (q : Str → Bool)
    (hq : q barSep = q finalBar) (h : replaceFirstBar r = some r') :
    r'.countP q = r.countP q := by
  induction r generalizing r' with
  | nil => simp [replaceFirstBar] at h
  | cons l ls ih =>
    simp only [replaceFirstBar] at h
    by_cases hl : l = barSep
    · rw [if_pos hl] at h
      cases h
      subst hl
      simp [List.countP_cons, hq]
    · rw [if_neg hl] at h
      rcases Option.map_eq_some'.mp h with ⟨rs, hrs, hr⟩
      subst hr
      simp [List.countP_cons, ih hrs]

/-- Replacement happening inside the left part of an appended list. -/
theorem replaceFirstBar_append {A B A' : List Str} (h : replaceFirstBar A = some A') :
    replaceFirstBar (A ++ B) = some (A' ++ B) := by
  induction A generalizing A' with
  | nil => simp [replaceFirstBar] at h
  | cons l ls ih =>
    simp only [replaceFirstBar, List.cons_append] at h ⊢
    by_cases hl : l = barSep
    · rw [if_pos hl] at h ⊢
      cases h
      rfl
    · rw [if_neg hl] at h ⊢
      rcases Option.map_eq_some'.mp h with ⟨rs, hrs, hr⟩
      subst hr
      simp [ih hrs]

/-- The final bar is present after a successful replacement. -/
theorem replaceFirstBar_mem {r r' : List Str} (h : replaceFirstBar r = some r') :
    finalBar ∈ r' := by
  induction r generalizing r' with
  | nil => simp [replaceFirstBar] at h
  | cons l ls ih =>
    simp only [replaceFirstBar] at h
    by_cases hl : l = barSep
    · rw [if_pos hl] at h
      cases h
      exact List.mem_cons_self _ _
    · rw [if_neg hl] at h
      rcases Option.map_eq_some'.mp h with ⟨rs, hrs, hr⟩
      subst hr
      exact List.mem_cons_of_mem _ (ih hrs)

/-- After a successful replacement the first bar-like token is the final
bar. -/
theorem replaceFirstBar_filter_head {r r' : List Str} (h : replaceFirstBar r = some r') :
    (r'.filter isBarish).head? = some finalBar := by
  induction r generalizing r' with
  | nil => simp [replaceFirstBar] at h
  | cons l ls ih =>
    simp only [replaceFirstBar] at h
    by_cases hl : l = barSep
    · rw [if_pos hl] at h
      cases h
      simp [List.filter_cons, isBarish]
    · rw [if_neg hl] at h
      rcases Option.map_eq_some'.mp h with ⟨rs, hrs, hr⟩
      subst hr
      rw [List.filter_cons]
      by_cases hb : isBarish l = true
      · have hlf : l = finalBar := by
          have := hb
          simp only [isBarish, Bool.or_eq_true, beq_iff_eq] at this
          rcases this with h1 | h1
          · exact absurd h1 hl
          · exact h1
        rw [if_pos hb, hlf]
        rfl
      · rw [if_neg hb]
        exact ih hrs

/-- The finalize step on the empty line list. -/
theorem finalizeLines_nil : finalizeLines [] = [] := rfl

/-- Count preservation of the finalize step when a bar separator exists. -/
theorem finalizeLines_countP {lines : List Str} (q : Str → Bool)
    (hq : q barSep = q finalBar) (hm : barSep ∈ lines) :
    (finalizeLines lines).countP q = lines.countP q := by
  have hne : lines.isEmpty = false := by
    cases lines with
    | nil => cases hm
    | cons a l => rfl
  obtain ⟨r', hr⟩ := replaceFirstBar_of_mem (List.mem_reverse.mpr hm)
  rw [finalizeLines, hne, hr]
  simp only [Bool.false_eq_true, if_false]
  rw [List.countP_reverse, replaceFirstBar_countP q hq hr, List.countP_reverse]

/-- When the bar separator occurs after a fixed marker token, the finalize
step leaves everything up to and including the marker unchanged and only
rewrites inside the tail. -/
theorem finalizeLines_decomp {U V : List Str} (x : Str) (hm : barSep ∈ V) :
    ∃ V2, finalizeLines (U ++ x :: V) = U ++ x :: V2 ∧
      ∀ q : Str → Bool, q barSep = q finalBar → V2.countP q = V.countP q := by
  have hne : (U ++ x :: V).isEmpty = false := by
    cases U <;> rfl
  obtain ⟨V', hV⟩ := replaceFirstBar_of_mem (List.mem_reverse.mpr hm)
  have hrev : (U ++ x :: V).reverse = V.reverse ++ (x :: U.reverse) := by
    simp
  have happ : replaceFirstBar ((U ++ x :: V).reverse) = some (V' ++ (x :: U.reverse)) := by
    rw [hrev]
    exact replaceFirstBar_append hV
  refine ⟨V'.reverse, ?_, ?_⟩
  · rw [finalizeLines, hne, happ]
    simp only [Bool.false_eq_true, if_false]
    simp [List.reverse_append]
  · intro q hq
    rw [List.countP_reverse, replaceFirstBar_countP q hq hV, List.countP_reverse]

/-- The finalize step of a non-empty line list contains the final bar. -/
theorem finalizeLines_mem {lines : List Str} (h : lines ≠ []) :
    finalBar ∈ finalizeLines lines := by
  have hne : lines.isEmpty = false := by
    cases lines with
    | nil => exact absurd rfl h
    | cons a l => rfl
  rw [finalizeLines, hne]
  simp only [Bool.false_eq_true, if_false]
  cases hr : replaceFirstBar lines.reverse with
  | none => simp
  | some r' => exact List.mem_reverse.mpr (replaceFirstBar_mem hr)

/-- The last bar-like token of a finalized non-empty line list is the final
bar. -/
theorem finalizeLines_last_barish {lines : List Str} (h : lines ≠ []) :
    ((finalizeLines lines).filter isBarish).getLast? = some finalBar := by
  have hne : lines.isEmpty = false := by
    cases lines with
    | nil => exact absurd rfl h
    | cons a l => rfl
  rw [finalizeLines, hne]
  simp only [Bool.false_eq_true, if_false]
  cases hr : replaceFirstBar lines.reverse with
  | none =>
    rw [List.filter_append]
    have : List.filter isBarish [finalBar] = [finalBar] := by decide
    rw [this, List.getLast?_concat]
  | some r' =>
    show (List.filter isBarish r'.reverse).getLast? = some finalBar
    rw [List.filter_reverse, List.getLast?_reverse]
    exact replaceFirstBar_filter_head hr

/-- Characters of member tokens survive the space join. -/
theorem mem_joinSp {c : Char} {t : Str} {ts : List Str} (ht : t ∈ ts) (hc : c ∈ t) :
    c ∈ joinSp ts := by
  induction ts with
  | nil => cases ht
  | cons a rest ih =>
    cases rest with
    | nil =>
      have : t = a := by simpa using ht
      subst this
      simpa [joinSp] using hc
    | cons b r2 =>
      rw [joinSp]
      rcases List.mem_cons.mp ht with h1 | h1
      · subst h1
        exact List.mem_append_left _ hc
      · exact List.mem_append_right _ (List.mem_cons_of_mem _ (ih h1))

/-- A character that fails the predicate survives dropWhile. -/
theorem mem_dropWhile_of_not {c : Char} {p : Char → Bool} {l : Str}
    (hc : c ∈ l) (hp : p c = false) : c ∈ l.dropWhile p := by
  induction l with
  | nil => cases hc
  | cons a rest ih =>
    rw [List.dropWhile_cons]
    by_cases ha : p a = true
    · rw [if_pos ha]
      rcases List.mem_cons.mp hc with h1 | h1
      · subst h1
        rw [hp] at ha
        cases ha
      · exact ih h1
    · rw [if_neg ha]
      exact hc

/-- A non-whitespace character survives the strip. -/
theorem mem_stripStr {c : Char} {s : Str} (hc : c ∈ s) (hw : c.isWhitespace = false) :
    c ∈ stripStr s := by
  unfold stripStr
  exact List.mem_reverse.mpr (mem_dropWhile_of_not
    (List.mem_reverse.mpr (mem_dropWhile_of_not hc hw)) hw)

/-! Token-class lemmas: every header token starts with a letter that none of
the structural single-character tokens carries. -/

/-- Lists with different heads differ. -/
theorem ne_of_head {a b : Str} (h : a.head? ≠ b.head?) : a ≠ b := fun he => h (he ▸ rfl)

/-- A time-signature token starts with T. -/
theorem tsTok_head (t : TimeSig) : (tsTok t).head? = some 'T' := rfl

/-- A rehearsal token starts with the star. -/
theorem rehearsalToken_head {m : Measure} {r : Str} (h : rehearsalToken m = some r) :
    r.head? = some '*' := by
  unfold rehearsalToken at h
  split at h
  · cases h
  · split at h
    · cases h
    · split at h
      · cases h
        rfl
      · cases h

/-- An explicit ending token starts with N. -/
theorem endingOfCandidates_head {cs : List Str} {e : Str}
    (h : endingOfCandidates cs = some e) : e.head? = some 'N' := by
  induction cs with
  | nil => cases h
  | cons c rest ih =>
    unfold endingOfCandidates at h
    split at h
    · cases h
      rfl
    · split at h
      · cases h
        rfl
      · split at h
        · cases h
          rfl
        · exact ih h

/-- Synthetic ending tokens start with N. -/
theorem synthLoopAux_head {ms : List Measure} :
    ∀ {j n : Nat} {ke : Nat × Str}, ke ∈ synthLoopAux ms j n → ke.2.head? = some 'N' := by
  induction ms with
  | nil =>
    intro j n ke h
    cases h
  | cons m rest ih =>
    intro j n ke h
    rw [synthLoopAux] at h
    rcases List.mem_cons.mp h with h1 | h1
    · subst h1
      rfl
    · split at h1
      · cases h1
      · exact ih h1

/-- Lookup success means membership. -/
theorem lookup_mem {k : Nat} {l : List (Nat × Str)} {e : Str}
    (h : List.lookup k l = some e) : (k, e) ∈ l := by
  induction l with
  | nil => cases h
  | cons a rest ih =>
    rw [List.lookup_cons] at h
    split at h
    · cases h
      have hk : k = a.1 := by
        rename_i hbeq
        exact eq_of_beq hbeq
      subst hk
      exact List.mem_cons_self _ _
    · exact List.mem_cons_of_mem _ (ih h)

/-- Deduplication only keeps original members. -/
theorem dedupAux_subset {xs : List Str} :
    ∀ {seen : List Str} {t : Str}, t ∈ dedupAux seen xs → t ∈ xs := by
  induction xs with
  | nil =>
    intro seen t h
    cases h
  | cons a rest ih =>
    intro seen t h
    rw [dedupAux] at h
    split at h
    · exact List.mem_cons_of_mem _ (ih h)
    · rcases List.mem_cons.mp h with h1 | h1
      · exact h1 ▸ List.mem_cons_self _ _
      · exact List.mem_cons_of_mem _ (ih h1)

/-- Every staff-text token starts with the angle bracket. -/
theorem staffTextTokens_head {m : Measure} {tok : Str} (h : tok ∈ staffTextTokens m) :
    tok.head? = some '<' := by
  unfold staffTextTokens at h
  have h2 := dedupAux_subset h
  rcases List.mem_flatMap.mp h2 with ⟨e, _, he⟩
  rcases hsc : staffContent e with _ | content
  · rw [hsc] at he
    cases he
  · rw [hsc] at he
    rcases List.mem_filterMap.mp he with ⟨kv, hkv, hif⟩
    have htok : tok = kv.2 := by
      by_cases hc : containsSub (lowerStr kv.1) (lowerStr content) = true
      · rw [if_pos hc] at hif
        exact (Option.some.inj hif).symm
      · rw [if_neg hc] at hif
        cases hif
    subst htok
    have hall : ∀ kv ∈ recognizedPhrases, (kv : Str × Str).2.head? = some '<' := by decide
    exact hall kv hkv

/-- Synthetic endings all start with N. -/
theorem syntheticEndings_head {ms : List Measure} {ke : Nat × Str}
    (h : ke ∈ syntheticEndings ms) : ke.2.head? = some 'N' := by
  unfold syntheticEndings at h
  split at h
  · exact synthLoopAux_head h
  · cases h

/-- Classification of the header tokens by their first character, given
that every synthetic ending starts with N. -/
theorem headerToks_head {synth : List (Nat × Str)} {idx : Nat} {st : MState} {m : Measure}
    {tok : Str} (hsynth : ∀ ke ∈ synth, (ke : Nat × Str).2.head? = some 'N')
    (h : tok ∈ headerToks synth idx st m) :
    tok.head? = some 'T' ∨ tok.head? = some '*' ∨ tok.head? = some 'N' ∨
      tok.head? = some '<' := by
  unfold headerToks at h
  rcases List.mem_append.mp h with h1 | h1
  case inr =>
    exact Or.inr (Or.inr (Or.inr (staffTextTokens_head h1)))
  rcases List.mem_append.mp h1 with h2 | h2
  case inr =>
    refine Or.inr (Or.inr (Or.inl ?_))
    unfold hdrEndList at h2
    split at h2
    case h_2 => cases h2
    case h_1 e he =>
      have htok : tok = e := by simpa using h2
      subst htok
      rcases het : endingToken m with _ | e0
      · rw [het] at he
        simp only at he
        exact hsynth _ (lookup_mem he)
      · rw [het] at he
        cases he
        exact endingOfCandidates_head het
  rcases List.mem_append.mp h2 with h3 | h3
  case inr =>
    refine Or.inr (Or.inl ?_)
    unfold rehList at h3
    split at h3
    case h_1 r hr =>
      have htok : tok = r := by simpa using h3
      subst htok
      exact rehearsalToken_head hr
    case h_2 => cases h3
  case inl =>
    refine Or.inl ?_
    unfold hdrTs at h3
    split at h3
    case h_2 => cases h3
    case h_1 t ht =>
      split at h3
      · have htok : tok = t := by simpa using h3
        subst htok
        rcases Option.map_eq_some'.mp ht with ⟨t0, _, ht0⟩
        rw [← ht0]
        exact tsTok_head t0
      · cases h3

/-- Membership in a conditional append. -/
theorem mem_condAppend {l : List Str} {x : Str} {c : Prop} [Decidable c] {t : Str}
    (h : t ∈ (if c then l ++ [x] else l)) : t ∈ l ∨ t = x := by
  split at h
  · rcases List.mem_append.mp h with h1 | h1
    · exact Or.inl h1
    · exact Or.inr (by simpa using h1)
  · exact Or.inl h

/-- One barline step only adds the open tokens to the prefix. -/
theorem barStep_fst {acc : List Str × List Str} {br : BarlineInfo × Str} {t : Str}
    (h : t ∈ (barStep acc br).1) : t ∈ acc.1 ∨ t = openRep ∨ t = openDbl := by
  simp only [barStep] at h
  rcases mem_condAppend h with h1 | h1
  · rcases mem_condAppend h1 with h2 | h2
    · exact Or.inl h2
    · exact Or.inr (Or.inl h2)
  · exact Or.inr (Or.inr h1)

/-- One barline step only adds the close tokens to the suffix. -/
theorem barStep_snd {acc : List Str × List Str} {br : BarlineInfo × Str} {t : Str}
    (h : t ∈ (barStep acc br).2) : t ∈ acc.2 ∨ t = closeRep ∨ t = closeDbl := by
  simp only [barStep] at h
  rcases mem_condAppend h with h1 | h1
  · rcases mem_condAppend h1 with h2 | h2
    · exact Or.inl h2
    · exact Or.inr (Or.inl h2)
  · exact Or.inr (Or.inr h1)

/-- Folding barline steps only adds open tokens to the prefix. -/
theorem foldl_barStep_fst {l : List (BarlineInfo × Str)} :
    ∀ {acc : List Str × List Str} {t : Str}, t ∈ (l.foldl barStep acc).1 →
      t ∈ acc.1 ∨ t = openRep ∨ t = openDbl := by
  induction l with
  | nil =>
    intro acc t h
    exact Or.inl h
  | cons a rest ih =>
    intro acc t h
    rw [List.foldl_cons] at h
    rcases ih h with h1 | h1
    · exact barStep_fst h1
    · exact Or.inr h1

/-- Folding barline steps only adds close tokens to the suffix. -/
theorem foldl_barStep_snd {l : List (BarlineInfo × Str)} :
    ∀ {acc : List Str × List Str} {t : Str}, t ∈ (l.foldl barStep acc).2 →
      t ∈ acc.2 ∨ t = closeRep ∨ t = closeDbl := by
  induction l with
  | nil =>
    intro acc t h
    exact Or.inl h
  | cons a rest ih =>
    intro acc t h
    rw [List.foldl_cons] at h
    rcases ih h with h1 | h1
    · exact barStep_snd h1
    · exact Or.inr h1

/-- The barline prefix holds only open tokens. -/
theorem barlineTokens_fst {m : Measure} {t : Str} (h : t ∈ (barlineTokens m).1) :
    t = openRep ∨ t = openDbl := by
  unfold barlineTokens at h
  rcases foldl_barStep_fst h with h1 | h1
  · cases h1
  · exact h1

/-- The barline suffix holds only close tokens. -/
theorem barlineTokens_snd {m : Measure} {t : Str} (h : t ∈ (barlineTokens m).2) :
    t = closeRep ∨ t = closeDbl := by
  unfold barlineTokens at h
  rcases foldl_barStep_snd h with h1 | h1
  · cases h1
  · exact h1

/-- Header tokens are never structural tokens. -/
theorem hdr_not_structural {tok : Str}
    (h : tok.head? = some 'T' ∨ tok.head? = some '*' ∨ tok.head? = some 'N' ∨
      tok.head? = some '<') :
    isBarish tok = false ∧ (tok == openRep) = false ∧ (tok == closeRep) = false := by
  have hne : ∀ u : Str, u.head? ≠ tok.head? → (tok == u) = false := by
    intro u hu
    exact beq_eq_false_iff_ne.mpr (fun he => hu (he ▸ rfl))
  have hbar : (tok == barSep) = false := by
    rcases h with h | h | h | h <;> exact hne barSep (by rw [h]; decide)
  have hfin : (tok == finalBar) = false := by
    rcases h with h | h | h | h <;> exact hne finalBar (by rw [h]; decide)
  have hop : (tok == openRep) = false := by
    rcases h with h | h | h | h <;> exact hne openRep (by rw [h]; decide)
  have hcl : (tok == closeRep) = false := by
    rcases h with h | h | h | h <;> exact hne closeRep (by rw [h]; decide)
  exact ⟨by simp [isBarish, hbar, hfin], hop, hcl⟩

/-- Prefix tokens of a measure, fallback included, are open tokens. -/
theorem preToks_sub {fb : Bool} {idx : Nat} {st : MState} {m : Measure} {t : Str}
    (h : t ∈ preToks fb idx st m) : t = openRep ∨ t = openDbl := by
  unfold preToks at h
  split at h
  · rcases List.mem_append.mp h with h1 | h1
    · exact barlineTokens_fst h1
    · exact Or.inl (by simpa using h1)
  · exact barlineTokens_fst h

/-- Suffix tokens of a measure, fallback included, are close tokens. -/
theorem postToks_sub {fb : Bool} {fei : Int} {idx : Nat} {st : MState} {m : Measure} {t : Str}
    (h : t ∈ postToks fb fei idx st m) : t = closeRep ∨ t = closeDbl := by
  unfold postToks at h
  split at h
  · rcases List.mem_append.mp h with h1 | h1
    · exact barlineTokens_snd h1
    · exact Or.inl (by simpa using h1)
  · exact barlineTokens_snd h

/-- Bar count of one measure block is one, provided the chord group is not
itself a bar token. -/
theorem block_countP_barish {fb : Bool} {fei : Int} {synth : List (Nat × Str)} {idx : Nat}
    {st : MState} {m : Measure}
    (hsynth : ∀ ke ∈ synth, (ke : Nat × Str).2.head? = some 'N')
    (hchord : joinSp (measureChords m) ≠ barSep ∧ joinSp (measureChords m) ≠ finalBar) :
    ((measureBlock fb fei synth idx st m).1).countP isBarish = 1 := by
  show (headerToks synth idx st m ++ preToks fb idx st m ++ chordPart m ++ [barSep] ++
      postToks fb fei idx st m).countP isBarish = 1
  simp only [List.countP_append]
  have h1 : (headerToks synth idx st m).countP isBarish = 0 :=
    List.countP_eq_zero.mpr (fun tok ht => by
      simp [(hdr_not_structural (headerToks_head hsynth ht)).1])
  have h2 : (preToks fb idx st m).countP isBarish = 0 :=
    List.countP_eq_zero.mpr (fun tok ht => by
      rcases preToks_sub ht with h | h <;> subst h <;> decide)
  have h3 : (chordPart m).countP isBarish = 0 :=
    List.countP_eq_zero.mpr (fun tok ht => by
      have htok : tok = joinSp (measureChords m) := by
        unfold chordPart at ht
        split at ht
        · simpa using ht
        · cases ht
      subst htok
      simp [isBarish, beq_eq_false_iff_ne.mpr hchord.1, beq_eq_false_iff_ne.mpr hchord.2])
  have h4 : (postToks fb fei idx st m).countP isBarish = 0 :=
    List.countP_eq_zero.mpr (fun tok ht => by
      rcases postToks_sub ht with h | h <;> subst h <;> decide)
  rw [h1, h2, h3, h4]
  decide

/-- Bar count of the measure loop equals the number of measures. -/
theorem progLoop_countP_barish {fb : Bool} {fei : Int} {synth : List (Nat × Str)}
    (hsynth : ∀ ke ∈ synth, (ke : Nat × Str).2.head? = some 'N') :
    ∀ (ms : List Measure) (idx : Nat) (st : MState),
      (∀ m ∈ ms, joinSp (measureChords m) ≠ barSep ∧ joinSp (measureChords m) ≠ finalBar) →
      (progLoop fb fei synth idx st ms).countP isBarish = ms.length := by
  intro ms
  induction ms with
  | nil =>
    intro idx st _
    rfl
  | cons m rest ih =>
    intro idx st hch
    rw [progLoop]
    simp only [List.countP_append, List.length_cons]
    rw [block_countP_barish hsynth (hch m (List.mem_cons_self m rest)),
      ih _ _ (fun x hx => hch x (List.mem_cons_of_mem m hx))]
    omega

/-- The loop output of a non-empty measure list contains a bar separator. -/
theorem progLoop_mem_barSep {fb : Bool} {fei : Int} {synth : List (Nat × Str)}
    {ms : List Measure} {idx : Nat} {st : MState} (h : ms ≠ []) :
    barSep ∈ progLoop fb fei synth idx st ms := by
  cases ms with
  | nil => exact absurd rfl h
  | cons m rest =>
    rw [progLoop]
    refine List.mem_append_left _ ?_
    show barSep ∈ (measureBlock fb fei synth idx st m).1
    show barSep ∈ headerToks synth idx st m ++ preToks fb idx st m ++ chordPart m ++
      [barSep] ++ postToks fb fei idx st m
    refine List.mem_append_left _ (List.mem_append_right _ ?_)
    exact List.mem_singleton.mpr rfl

/-- A bar separator exists whenever the part has measures. -/
theorem mainLines_mem_barSep {p : Part} (h : p.measures ≠ []) : barSep ∈ mainLines p := by
  unfold mainLines
  exact List.mem_append_right _ (progLoop_mem_barSep h)

/-- The assembled line list is empty exactly when the part has neither
measures nor a detected starting time signature. -/
theorem mainLines_eq_nil_iff {p : Part} :
    mainLines p = [] ↔ p.measures = [] ∧ detectTimeSignature p = none := by
  constructor
  · intro h
    have hm : p.measures = [] := by
      by_contra hne
      exact absurd h (List.ne_nil_of_mem (mainLines_mem_barSep hne))
    refine ⟨hm, ?_⟩
    unfold mainLines at h
    rcases hd : detectTimeSignature p with _ | t
    · rfl
    · rw [hd] at h
      cases h
  · intro ⟨hm, hd⟩
    unfold mainLines
    rw [hm, hd]
    rfl

/-- The progression string is empty exactly when the line list is. -/
theorem buildProgression_eq_nil_iff {p : Part} :
    buildProgression p = [] ↔ mainLines p = [] := by
  constructor
  · intro h
    by_contra hne
    have hz : finalBar ∈ finalizeLines (mainLines p) := finalizeLines_mem hne
    have hc : 'Z' ∈ joinSp (progressionTokens p) :=
      mem_joinSp hz (List.mem_singleton.mpr rfl)
    have hs : 'Z' ∈ buildProgression p := mem_stripStr hc (by decide)
    rw [h] at hs
    cases hs
  · intro h
    unfold buildProgression progressionTokens
    rw [h]
    rfl

/-- A contains test fails for a non-member. -/
theorem contains_eq_false {l : List Str} {x : Str} (h : x ∉ l) : l.contains x = false := by
  cases hc : l.contains x
  · rfl
  · exact absurd (by simpa using hc) h

/-- Count of a token no list member equals. -/
theorem countTok_eq_zero {x : Str} {ts : List Str} (h : ∀ t ∈ ts, t ≠ x) :
    countTok x ts = 0 :=
  List.countP_eq_zero.mpr (fun t ht => by simp [h t ht])

/-- The forward flag stays up. -/
theorem fwdAfterBars_of_true {st : MState} {m : Measure} (h : st.fwd = true) :
    fwdAfterBars st m = true := by
  unfold fwdAfterBars
  rw [h]
  rfl

/-- The backward flag stays up. -/
theorem bwdAfterBars_of_true {st : MState} {m : Measure} (h : st.bwd = true) :
    bwdAfterBars st m = true := by
  unfold bwdAfterBars
  rw [h]
  rfl

/-- The forward flag stays down over a measure without a repeat open. -/
theorem fwdAfterBars_false {st : MState} {m : Measure} (h : st.fwd = false)
    (hbar : openRep ∉ (barlineTokens m).1) : fwdAfterBars st m = false := by
  unfold fwdAfterBars
  rw [h, contains_eq_false hbar]
  rfl

/-- The backward flag stays down over a measure without a repeat close. -/
theorem bwdAfterBars_false {st : MState} {m : Measure} (h : st.bwd = false)
    (hbar : closeRep ∉ (barlineTokens m).2) : bwdAfterBars st m = false := by
  unfold bwdAfterBars
  rw [h, contains_eq_false hbar]
  rfl

/-- Prefix tokens with the forward flag already up. -/
theorem preToks_noFire {fb : Bool} {idx : Nat} {st : MState} {m : Measure}
    (h : fwdAfterBars st m = true) : preToks fb idx st m = (barlineTokens m).1 := by
  unfold preToks
  rw [if_neg]
  intro hcond
  rw [h] at hcond
  exact absurd hcond.2.1 (by simp)

/-- The forward flag after a measure with the flag already up. -/
theorem fwdNext_of_true {fb : Bool} {idx : Nat} {st : MState} {m : Measure}
    (h : fwdAfterBars st m = true) : fwdNext fb idx st m = true := by
  unfold fwdNext
  split
  · rfl
  · exact h

/-- Prefix tokens when the measure-zero fallback fires. -/
theorem preToks_fire {fb : Bool} {st : MState} {m : Measure} (hfb : fb = true)
    (h : fwdAfterBars st m = false) :
    preToks fb 0 st m = (barlineTokens m).1 ++ [openRep] := by
  unfold preToks
  rw [if_pos ⟨hfb, h, rfl⟩]

/-- The forward flag rises when the fallback fires. -/
theorem fwdNext_fire {fb : Bool} {st : MState} {m : Measure} (hfb : fb = true)
    (h : fwdAfterBars st m = false) : fwdNext fb 0 st m = true := by
  unfold fwdNext
  rw [if_pos ⟨hfb, h, rfl⟩]

/-- Prefix tokens on a later measure with the flag down. -/
theorem preToks_later {fb : Bool} {idx : Nat} {st : MState} {m : Measure}
    (h : idx ≠ 0) : preToks fb idx st m = (barlineTokens m).1 := by
  unfold preToks
  rw [if_neg]
  intro hcond
  exact h hcond.2.2

/-- The forward flag after a later measure is the running flag. -/
theorem fwdNext_later {fb : Bool} {idx : Nat} {st : MState} {m : Measure}
    (h : idx ≠ 0) : fwdNext fb idx st m = fwdAfterBars st m := by
  unfold fwdNext
  rw [if_neg]
  intro hcond
  exact h hcond.2.2

/-- Suffix tokens with the backward flag already up. -/
theorem postToks_noFire {fb : Bool} {fei : Int} {idx : Nat} {st : MState} {m : Measure}
    (h : bwdAfterBars st m = true) : postToks fb fei idx st m = (barlineTokens m).2 := by
  unfold postToks
  rw [if_neg]
  intro hcond
  rw [h] at hcond
  exact absurd hcond.2.1 (by simp)

/-- The backward flag after a measure with the flag already up. -/
theorem bwdNext_of_true {fb : Bool} {fei : Int} {idx : Nat} {st : MState} {m : Measure}
    (h : bwdAfterBars st m = true) : bwdNext fb fei idx st m = true := by
  unfold bwdNext
  split
  · rfl
  · exact h

/-- Suffix tokens when the pre-ending fallback fires. -/
theorem postToks_fire {fb : Bool} {fei : Int} {idx : Nat} {st : MState} {m : Measure}
    (hfb : fb = true) (h : bwdAfterBars st m = false) (h1 : 1 ≤ fei)
    (h2 : (idx : Int) = fei - 1) :
    postToks fb fei idx st m = (barlineTokens m).2 ++ [closeRep] := by
  unfold postToks
  rw [if_pos ⟨hfb, h, h1, h2⟩]

/-- The backward flag rises when the fallback fires. -/
theorem bwdNext_fire {fb : Bool} {fei : Int} {idx : Nat} {st : MState} {m : Measure}
    (hfb : fb = true) (h : bwdAfterBars st m = false) (h1 : 1 ≤ fei)
    (h2 : (idx : Int) = fei - 1) : bwdNext fb fei idx st m = true := by
  unfold bwdNext
  rw [if_pos ⟨hfb, h, h1, h2⟩]

/-- Suffix tokens on a measure other than the pre-ending one. -/
theorem postToks_other {fb : Bool} {fei : Int} {idx : Nat} {st : MState} {m : Measure}
    (h : (idx : Int) ≠ fei - 1) : postToks fb fei idx st m = (barlineTokens m).2 := by
  unfold postToks
  rw [if_neg]
  intro hcond
  exact h hcond.2.2.2

/-- The backward flag elsewhere is the running flag. -/
theorem bwdNext_other {fb : Bool} {fei : Int} {idx : Nat} {st : MState} {m : Measure}
    (h : (idx : Int) ≠ fei - 1) : bwdNext fb fei idx st m = bwdAfterBars st m := by
  unfold bwdNext
  rw [if_neg]
  intro hcond
  exact h hcond.2.2.2

/-- No header token is the repeat-open token. -/
theorem headerToks_ne_open {synth : List (Nat × Str)} {idx : Nat} {st : MState} {m : Measure}
    (hsynth : ∀ ke ∈ synth, (ke : Nat × Str).2.head? = some 'N') :
    ∀ t ∈ headerToks synth idx st m, t ≠ openRep := fun t ht =>
  beq_eq_false_iff_ne.mp (hdr_not_structural (headerToks_head hsynth ht)).2.1

/-- No header token is the repeat-close token. -/
theorem headerToks_ne_close {synth : List (Nat × Str)} {idx : Nat} {st : MState} {m : Measure}
    (hsynth : ∀ ke ∈ synth, (ke : Nat × Str).2.head? = some 'N') :
    ∀ t ∈ headerToks synth idx st m, t ≠ closeRep := fun t ht =>
  beq_eq_false_iff_ne.mp (hdr_not_structural (headerToks_head hsynth ht)).2.2

/-- No header token is bar-like. -/
theorem headerToks_not_barish {synth : List (Nat × Str)} {idx : Nat} {st : MState}
    {m : Measure} (hsynth : ∀ ke ∈ synth, (ke : Nat × Str).2.head? = some 'N') :
    (headerToks synth idx st m).countP isBarish = 0 :=
  List.countP_eq_zero.mpr (fun t ht => by
    simp [(hdr_not_structural (headerToks_head hsynth ht)).1])

/-- Repeat-open count of one block whose prefix avoids it. -/
theorem block_countTok_open {fb : Bool} {fei : Int} {synth : List (Nat × Str)} {idx : Nat}
    {st : MState} {m : Measure}
    (hsynth : ∀ ke ∈ synth, (ke : Nat × Str).2.head? = some 'N')
    (hpre : openRep ∉ preToks fb idx st m) (hch : joinSp (measureChords m) ≠ openRep) :
    countTok openRep (measureBlock fb fei synth idx st m).1 = 0 := by
  show countTok openRep (headerToks synth idx st m ++ preToks fb idx st m ++ chordPart m ++
    [barSep] ++ postToks fb fei idx st m) = 0
  unfold countTok
  simp only [List.countP_append]
  have h1 : countTok openRep (headerToks synth idx st m) = 0 :=
    countTok_eq_zero (headerToks_ne_open hsynth)
  have h2 : countTok openRep (preToks fb idx st m) = 0 :=
    countTok_eq_zero (fun t ht he => hpre (he ▸ ht))
  have h3 : countTok openRep (chordPart m) = 0 :=
    countTok_eq_zero (fun t ht => by
      have htok : t = joinSp (measureChords m) := by
        unfold chordPart at ht
        split at ht
        · simpa using ht
        · cases ht
      exact htok ▸ hch)
  have h4 : countTok openRep (postToks fb fei idx st m) = 0 :=
    countTok_eq_zero (fun t ht => by
      rcases postToks_sub ht with h | h <;> subst h <;> decide)
  unfold countTok at h1 h2 h3 h4
  rw [h1, h2, h3, h4]
  decide

/-- Repeat-close count of one block whose suffix avoids it. -/
theorem block_countTok_close {fb : Bool} {fei : Int} {synth : List (Nat × Str)} {idx : Nat}
    {st : MState} {m : Measure}
    (hsynth : ∀ ke ∈ synth, (ke : Nat × Str).2.head? = some 'N')
    (hpost : closeRep ∉ postToks fb fei idx st m)
    (hch : joinSp (measureChords m) ≠ closeRep) :
    countTok closeRep (measureBlock fb fei synth idx st m).1 = 0 := by
  show countTok closeRep (headerToks synth idx st m ++ preToks fb idx st m ++ chordPart m ++
    [barSep] ++ postToks fb fei idx st m) = 0
  unfold countTok
  simp only [List.countP_append]
  have h1 : countTok closeRep (headerToks synth idx st m) = 0 :=
    countTok_eq_zero (headerToks_ne_close hsynth)
  have h2 : countTok closeRep (preToks fb idx st m) = 0 :=
    countTok_eq_zero (fun t ht => by
      rcases preToks_sub ht with h | h <;> subst h <;> decide)
  have h3 : countTok closeRep (chordPart m) = 0 :=
    countTok_eq_zero (fun t ht => by
      have htok : t = joinSp (measureChords m) := by
        unfold chordPart at ht
        split at ht
        · simpa using ht
        · cases ht
      exact htok ▸ hch)
  have h4 : countTok closeRep (postToks fb fei idx st m) = 0 :=
    countTok_eq_zero (fun t ht he => hpost (he ▸ ht))
  unfold countTok at h1 h2 h3 h4
  rw [h1, h2, h3, h4]
  decide

/-- The loop emits no repeat-open once the forward flag is up. -/
theorem progLoop_open_zero {fb : Bool} {fei : Int} {synth : List (Nat × Str)}
    (hsynth : ∀ ke ∈ synth, (ke : Nat × Str).2.head? = some 'N') :
    ∀ (ms : List Measure) (idx : Nat) (st : MState),
      (∀ m ∈ ms, openRep ∉ (barlineTokens m).1) →
      (∀ m ∈ ms, joinSp (measureChords m) ≠ openRep) →
      st.fwd = true →
      countTok openRep (progLoop fb fei synth idx st ms) = 0 := by
  intro ms
  induction ms with
  | nil =>
    intro idx st _ _ _
    rfl
  | cons m rest ih =>
    intro idx st hbar hch hfwd
    have hf : fwdAfterBars st m = true := fwdAfterBars_of_true hfwd
    rw [progLoop]
    unfold countTok
    rw [List.countP_append]
    have hblk : countTok openRep (measureBlock fb fei synth idx st m).1 = 0 :=
      block_countTok_open hsynth
        (by
          rw [preToks_noFire hf]
          exact hbar m (List.mem_cons_self m rest))
        (hch m (List.mem_cons_self m rest))
    unfold countTok at hblk
    rw [hblk]
    have hst : (measureBlock fb fei synth idx st m).2.fwd = true := fwdNext_of_true hf
    have hrest := ih (idx + 1) (measureBlock fb fei synth idx st m).2
      (fun x hx => hbar x (List.mem_cons_of_mem m hx))
      (fun x hx => hch x (List.mem_cons_of_mem m hx)) hst
    unfold countTok at hrest
    rw [hrest]

/-- The loop emits no repeat-close once the backward flag is up. -/
theorem progLoop_close_zero {fb : Bool} {fei : Int} {synth : List (Nat × Str)}
    (hsynth : ∀ ke ∈ synth, (ke : Nat × Str).2.head? = some 'N') :
    ∀ (ms : List Measure) (idx : Nat) (st : MState),
      (∀ m ∈ ms, closeRep ∉ (barlineTokens m).2) →
      (∀ m ∈ ms, joinSp (measureChords m) ≠ closeRep) →
      st.bwd = true →
      countTok closeRep (progLoop fb fei synth idx st ms) = 0 := by
  intro ms
  induction ms with
  | nil =>
    intro idx st _ _ _
    rfl
  | cons m rest ih =>
    intro idx st hbar hch hbwd
    have hf : bwdAfterBars st m = true := bwdAfterBars_of_true hbwd
    rw [progLoop]
    unfold countTok
    rw [List.countP_append]
    have hblk : countTok closeRep (measureBlock fb fei synth idx st m).1 = 0 :=
      block_countTok_close hsynth
        (by
          rw [postToks_noFire hf]
          exact hbar m (List.mem_cons_self m rest))
        (hch m (List.mem_cons_self m rest))
    unfold countTok at hblk
    rw [hblk]
    have hst : (measureBlock fb fei synth idx st m).2.bwd = true := bwdNext_of_true hf
    have hrest := ih (idx + 1) (measureBlock fb fei synth idx st m).2
      (fun x hx => hbar x (List.mem_cons_of_mem m hx))
      (fun x hx => hch x (List.mem_cons_of_mem m hx)) hst
    unfold countTok at hrest
    rw [hrest]

/-- Decomposition of the loop output around the fallback repeat-close: with
the backward flag down and the pre-ending measure still ahead, the loop
emits exactly one repeat-close, after exactly first-ending-index many bar
separators. -/
theorem progLoop_close_decomp {fb : Bool} {synth : List (Nat × Str)} {f : Nat}
    (hsynth : ∀ ke ∈ synth, (ke : Nat × Str).2.head? = some 'N') (hf : 1 ≤ f)
    (hfb : fb = true) :
    ∀ (ms : List Measure) (idx : Nat) (st : MState),
      (∀ m ∈ ms, openRep ∉ (barlineTokens m).1 ∧ closeRep ∉ (barlineTokens m).2) →
      (∀ m ∈ ms, joinSp (measureChords m) ∉ ([openRep, closeRep, barSep, finalBar] : List Str)) →
      st.bwd = false →
      idx ≤ f - 1 → f < idx + ms.length →
      ∃ U V, progLoop fb (f : Int) synth idx st ms = U ++ closeRep :: V ∧
        U.countP isBarish = f - idx ∧
        countTok closeRep U = 0 ∧ countTok closeRep V = 0 ∧ barSep ∈ V := by
  intro ms
  induction ms with
  | nil =>
    intro idx st _ _ _ hle hlt
    simp only [List.length_nil, Nat.add_zero] at hlt
    omega
  | cons m rest ih =>
    intro idx st hbar hch hbwd hle hlt
    have hbarm := hbar m (List.mem_cons_self m rest)
    have hchm := hch m (List.mem_cons_self m rest)
    have hchm4 : joinSp (measureChords m) ≠ openRep ∧ joinSp (measureChords m) ≠ closeRep ∧
        joinSp (measureChords m) ≠ barSep ∧ joinSp (measureChords m) ≠ finalBar := by
      simp only [List.mem_cons, List.mem_singleton, not_or] at hchm
      exact ⟨hchm.1, hchm.2.1, hchm.2.2.1, hchm.2.2.2.1⟩
    have hbwdA : bwdAfterBars st m = false := bwdAfterBars_false hbwd hbarm.2
    by_cases hidx : idx = f - 1
    · -- the fallback fires on this measure
      have hidxI : (idx : Int) = (f : Int) - 1 := by omega
      have hpost := postToks_fire hfb hbwdA (by omega) hidxI
      have hbN := bwdNext_fire hfb hbwdA (by omega) hidxI
      have hrest_ne : rest ≠ [] := by
        intro hre
        rw [hre] at hlt
        simp only [List.length_cons, List.length_nil] at hlt
        omega
      refine ⟨headerToks synth idx st m ++ preToks fb idx st m ++ chordPart m ++ [barSep] ++
          (barlineTokens m).2,
        progLoop fb (f : Int) synth (idx + 1) (measureBlock fb (f : Int) synth idx st m).2 rest,
        ?_, ?_, ?_, ?_, ?_⟩
      · rw [progLoop]
        show headerToks synth idx st m ++ preToks fb idx st m ++ chordPart m ++ [barSep] ++
            postToks fb (f : Int) idx st m ++ _ = _
        rw [hpost]
        simp [List.append_assoc]
      · simp only [List.countP_append]
        rw [headerToks_not_barish hsynth]
        have h2 : (preToks fb idx st m).countP isBarish = 0 :=
          List.countP_eq_zero.mpr (fun t ht => by
            rcases preToks_sub ht with h | h <;> subst h <;> decide)
        have h3 : (chordPart m).countP isBarish = 0 :=
          List.countP_eq_zero.mpr (fun t ht => by
            have htok : t = joinSp (measureChords m) := by
              unfold chordPart at ht
              split at ht
              · simpa using ht
              · cases ht
            subst htok
            simp [isBarish, beq_eq_false_iff_ne.mpr hchm4.2.2.1,
              beq_eq_false_iff_ne.mpr hchm4.2.2.2])
        have h4 : ((barlineTokens m).2).countP isBarish = 0 :=
          List.countP_eq_zero.mpr (fun t ht => by
            rcases barlineTokens_snd ht with h | h <;> subst h <;> decide)
        rw [h2, h3, h4]
        have : (([barSep] : List Str).countP isBarish) = 1 := by decide
        rw [this]
        omega
      · apply countTok_eq_zero
        intro t ht
        simp only [List.append_assoc, List.mem_append, List.mem_singleton] at ht
        rcases ht with h | h | h | h | h
        · exact headerToks_ne_close hsynth t h
        · rcases preToks_sub h with h1 | h1 <;> subst h1 <;> decide
        · have htok : t = joinSp (measureChords m) := by
            unfold chordPart at h
            split at h
            · simpa using h
            · cases h
          exact htok ▸ hchm4.2.1
        · subst h
          decide
        · exact fun he => hbarm.2 (he ▸ h)
      · exact progLoop_close_zero hsynth rest (idx + 1) _
          (fun x hx => (hbar x (List.mem_cons_of_mem m hx)).2)
          (fun x hx => by
            have := hch x (List.mem_cons_of_mem m hx)
            simp only [List.mem_cons, List.mem_singleton, not_or] at this
            exact this.2.1)
          hbN
      · exact progLoop_mem_barSep hrest_ne
    · -- the fallback does not fire yet
      have hlt2 : idx < f - 1 := Nat.lt_of_le_of_ne (by omega) hidx
      have hidxI : (idx : Int) ≠ (f : Int) - 1 := by omega
      have hst : (measureBlock fb (f : Int) synth idx st m).2.bwd = false := by
        show bwdNext fb (f : Int) idx st m = false
        rw [bwdNext_other hidxI, hbwdA]
      have hlt3 : f < (idx + 1) + rest.length := by
        simp only [List.length_cons] at hlt
        omega
      obtain ⟨U', V', hEq, hCount, hU', hV', hbarV⟩ :=
        ih (idx + 1) (measureBlock fb (f : Int) synth idx st m).2
          (fun x hx => hbar x (List.mem_cons_of_mem m hx))
          (fun x hx => hch x (List.mem_cons_of_mem m hx))
          hst (by omega) hlt3
      refine ⟨(measureBlock fb (f : Int) synth idx st m).1 ++ U', V', ?_, ?_, ?_, hV', hbarV⟩
      · rw [progLoop, hEq, List.append_assoc]
      · rw [List.countP_append,
          block_countP_barish hsynth ⟨hchm4.2.2.1, hchm4.2.2.2⟩, hCount]
        omega
      · unfold countTok
        rw [List.countP_append]
        have hblk : countTok closeRep (measureBlock fb (f : Int) synth idx st m).1 = 0 :=
          block_countTok_close hsynth
            (by
              rw [postToks_other hidxI]
              exact hbarm.2) hchm4.2.1
        unfold countTok at hblk hU'
        rw [hblk, hU']

/-- Decomposition of the loop output around the fallback repeat-open: with
the forward flag down at measure zero, the loop opens the bracket right
after measure zero's header and own barline prefix. -/
theorem progLoop_open_decomp {fb : Bool} {fei : Int} {synth : List (Nat × Str)}
    (hsynth : ∀ ke ∈ synth, (ke : Nat × Str).2.head? = some 'N') (hfb : fb = true)
    {m : Measure} {rest : List Measure} {st : MState}
    (hbar : ∀ x ∈ m :: rest, openRep ∉ (barlineTokens x).1 ∧ closeRep ∉ (barlineTokens x).2)
    (hch : ∀ x ∈ m :: rest,
      joinSp (measureChords x) ∉ ([openRep, closeRep, barSep, finalBar] : List Str))
    (hfwd : st.fwd = false) :
    ∃ V, progLoop fb fei synth 0 st (m :: rest) =
        (headerToks synth 0 st m ++ (barlineTokens m).1) ++ openRep :: V ∧
      countTok openRep V = 0 ∧ barSep ∈ V ∧
      (headerToks synth 0 st m ++ (barlineTokens m).1).countP isBarish = 0 ∧
      countTok openRep (headerToks synth 0 st m ++ (barlineTokens m).1) = 0 := by
  have hbarm := hbar m (List.mem_cons_self m rest)
  have hchm := hch m (List.mem_cons_self m rest)
  have hchm4 : joinSp (measureChords m) ≠ openRep ∧ joinSp (measureChords m) ≠ closeRep ∧
      joinSp (measureChords m) ≠ barSep ∧ joinSp (measureChords m) ≠ finalBar := by
    simp only [List.mem_cons, List.mem_singleton, not_or] at hchm
    exact ⟨hchm.1, hchm.2.1, hchm.2.2.1, hchm.2.2.2.1⟩
  have hfA : fwdAfterBars st m = false := fwdAfterBars_false hfwd hbarm.1
  have hpre := preToks_fire hfb hfA
  have hstf : (measureBlock fb fei synth 0 st m).2.fwd = true := fwdNext_fire hfb hfA
  refine ⟨chordPart m ++ [barSep] ++ postToks fb fei 0 st m ++
      progLoop fb fei synth 1 (measureBlock fb fei synth 0 st m).2 rest, ?_, ?_, ?_, ?_, ?_⟩
  · rw [progLoop]
    show headerToks synth 0 st m ++ preToks fb 0 st m ++ chordPart m ++ [barSep] ++
        postToks fb fei 0 st m ++ _ = _
    rw [hpre]
    simp [List.append_assoc]
  · unfold countTok
    simp only [List.countP_append]
    have h1 : countTok openRep (chordPart m) = 0 :=
      countTok_eq_zero (fun t ht => by
        have htok : t = joinSp (measureChords m) := by
          unfold chordPart at ht
          split at ht
          · simpa using ht
          · cases ht
        exact htok ▸ hchm4.1)
    have h2 : countTok openRep ([barSep] : List Str) = 0 := by decide
    have h3 : countTok openRep (postToks fb fei 0 st m) = 0 :=
      countTok_eq_zero (fun t ht => by
        rcases postToks_sub ht with h | h <;> subst h <;> decide)
    have h4 : countTok openRep
        (progLoop fb fei synth 1 (measureBlock fb fei synth 0 st m).2 rest) = 0 :=
      progLoop_open_zero hsynth rest 1 _
        (fun x hx => (hbar x (List.mem_cons_of_mem m hx)).1)
        (fun x hx => by
          have := hch x (List.mem_cons_of_mem m hx)
          simp only [List.mem_cons, List.mem_singleton, not_or] at this
          exact this.1)
        hstf
    unfold countTok at h1 h2 h3 h4
    rw [h1, h2, h3, h4]
  · refine List.mem_append_left _ (List.mem_append_left _ ?_)
    exact List.mem_append_right _ (List.mem_singleton.mpr rfl)
  · rw [List.countP_append, headerToks_not_barish hsynth]
    have h2 : ((barlineTokens m).1).countP isBarish = 0 :=
      List.countP_eq_zero.mpr (fun t ht => by
        rcases barlineTokens_fst ht with h | h <;> subst h <;> decide)
    rw [h2]
  · unfold countTok
    rw [List.countP_append]
    have h1 : countTok openRep (headerToks synth 0 st m) = 0 :=
      countTok_eq_zero (headerToks_ne_open hsynth)
    have h2 : countTok openRep ((barlineTokens m).1) = 0 :=
      countTok_eq_zero (fun t ht he => hbarm.1 (he ▸ ht))
    unfold countTok at h1 h2
    rw [h1, h2]

/-- Decidable equality for encoder results. -/
instance : DecidableEq (Except Str Str) := fun a b =>
  match a, b with
  | Except.error x, Except.error y =>
    if h : x = y then isTrue (by rw [h]) else isFalse (fun he => h (Except.error.inj he))
  | Except.ok x, Except.ok y =>
    if h : x = y then isTrue (by rw [h]) else isFalse (fun he => h (Except.ok.inj he))
  | Except.error _, Except.ok _ => isFalse (fun he => Except.noConfusion he)
  | Except.ok _, Except.error _ => isFalse (fun he => Except.noConfusion he)

/-- The detected starting time-signature token starts with T. -/
theorem detectTimeSignature_head {p : Part} {t : Str} (h : detectTimeSignature p = some t) :
    t.head? = some 'T' := by
  unfold detectTimeSignature at h
  split at h
  · cases h
    exact tsTok_head _
  · rcases Option.map_eq_some'.mp h with ⟨t0, _, ht0⟩
    rw [← ht0]
    exact tsTok_head t0

/-! Concrete instances used by counterexamples and witnesses. -/

/-- A measure holding one stacked chord with root C and nothing else. -/
def measC : Measure := ⟨[], [⟨some "C".toList, none, none⟩], none, none, [], [], [], none, none⟩

/-- An entirely empty part. -/
def partEmpty : Part := ⟨none, [], []⟩

/-- A part holding a 4/4 time signature and a loose chord but no measures. -/
def partTsOnly : Part := ⟨some ⟨4, 4⟩, [], [⟨some "C".toList, none, none⟩]⟩

/-- A part with a single C measure. -/
def partC : Part := ⟨none, [measC], []⟩

/-- A part holding a loose chord but no measures and no time signature. -/
def partLoose : Part := ⟨none, [], [⟨some "C".toList, none, none⟩]⟩

/-- A score whose only part carries a loose chord outside any measure. -/
def scoreLoose : Score := ⟨[partLoose], partEmpty, none, none⟩

/-- A bar-count helper for the whole pre-rewrite line list. -/
theorem mainLines_countP_barish {p : Part}
    (hch : ∀ m ∈ p.measures, joinSp (measureChords m) ≠ barSep ∧
      joinSp (measureChords m) ≠ finalBar) :
    (mainLines p).countP isBarish = p.measures.length := by
  have hsynth : ∀ ke ∈ syntheticEndings p.measures, (ke : Nat × Str).2.head? = some 'N' :=
    fun _ hke => syntheticEndings_head hke
  unfold mainLines
  rw [List.countP_append, progLoop_countP_barish hsynth p.measures 0 _ hch]
  rcases hd : detectTimeSignature p with _ | t
  · simp
  · have ht : isBarish t = false :=
      (hdr_not_structural (Or.inl (detectTimeSignature_head hd))).1
    simp [ht]

/-- Claim C1, counterexample: on a part with no measures and no time
signature the returned progression is the empty string and contains no
final-bar token, so no Z is appended in the degenerate case. -/
theorem claim1_cex :
    buildProgression partEmpty = [] ∧ progressionTokens partEmpty = [] ∧
      finalBar ∉ progressionTokens partEmpty := by decide

/-- Claim C1 (amended): after the full pass the last bar-like token of the
progression is the final bar; the token list replaces its last bar
separator, or receives an appended Z when none exists but the list is
non-empty; when the token list is empty (no measures and no starting time
signature) the progression is empty and carries no final bar. -/
theorem claim1 (p : Part) :
    (progressionTokens p = [] ∧ buildProgression p = [] ∧ p.measures = [] ∧
        detectTimeSignature p = none) ∨
      ((progressionTokens p).filter isBarish).getLast? = some finalBar := by
  by_cases h : mainLines p = []
  · left
    have hm := mainLines_eq_nil_iff.mp h
    refine ⟨?_, buildProgression_eq_nil_iff.mpr h, hm.1, hm.2⟩
    unfold progressionTokens
    rw [h]
    rfl
  · right
    exact finalizeLines_last_barish h

/-- Claim C2, counterexample: a selected part with a starting time
signature and no measures yields one bar-like token while holding zero
measures. -/
theorem claim2_cex :
    partHasChords partTsOnly = true ∧
    (targets ⟨[partTsOnly], partEmpty, none, none⟩).find? partHasChords = some partTsOnly ∧
    (progressionTokens partTsOnly).countP isBarish = 1 ∧
    partTsOnly.measures.length = 0 := by decide

/-- Claim C2 (amended): for a part with at least one measure, and whose
per-measure chord groups are never literally the bar separator or the final
bar, the number of bar-separator-or-final-bar tokens in the progression
equals the number of measures; each measure's block contributes its one
separator between the chord group and the suffix tokens by construction of
the emission order. -/
theorem claim2 (p : Part) (hm : p.measures ≠ [])
    (hch : ∀ m ∈ p.measures, joinSp (measureChords m) ≠ barSep ∧
      joinSp (measureChords m) ≠ finalBar) :
    (progressionTokens p).countP isBarish = p.measures.length := by
  unfold progressionTokens
  rw [finalizeLines_countP isBarish (by decide) (mainLines_mem_barSep hm)]
  exact mainLines_countP_barish hch

/-- Claim C2 witness at the one-measure C part. -/
theorem claim2_witness :
    (progressionTokens partC).countP isBarish = partC.measures.length :=
  claim2 partC (by decide) (by decide)

/-- Claim C3, counterexample: a score whose only part carries a chord
outside any measure is selected, yet the encoder raises the no-chords
error because the progression is empty without the part having measures. -/
theorem claim3_cex :
    scoreToIrealproUrl scoreLoose none = Except.error noChordsMsg ∧
    partHasChords partLoose = true ∧ partLoose.measures = [] ∧
    (targets scoreLoose).find? partHasChords = some partLoose := by decide

/-- Claim C3 (amended): the encoder errors exactly when no target part has
chords, or when the selected part's progression is empty, which happens
precisely when that part has no measures and no detected starting time
signature; the error is always the no-chords message and every other case
returns a URL string. -/
theorem claim3 (s : Score) (st : Option Str) :
    ((∃ e, scoreToIrealproUrl s st = Except.error e) ↔
      ((targets s).find? partHasChords = none ∨
        ∃ p, (targets s).find? partHasChords = some p ∧ p.measures = [] ∧
          detectTimeSignature p = none)) ∧
    (∀ e, scoreToIrealproUrl s st = Except.error e → e = noChordsMsg) := by
  unfold scoreToIrealproUrl
  rcases hf : (targets s).find? partHasChords with _ | p
  · refine ⟨⟨fun _ => Or.inl rfl, fun _ => ⟨noChordsMsg, rfl⟩⟩, ?_⟩
    intro e he
    exact (Except.error.inj he).symm
  · dsimp only
    by_cases hp : buildProgression p = []
    · rw [if_pos hp]
      have hnil := mainLines_eq_nil_iff.mp (buildProgression_eq_nil_iff.mp hp)
      refine ⟨⟨fun _ => Or.inr ⟨p, rfl, hnil.1, hnil.2⟩, fun _ => ⟨noChordsMsg, rfl⟩⟩, ?_⟩
      intro e he
      exact (Except.error.inj he).symm
    · rw [if_neg hp]
      constructor
      · constructor
        · intro ⟨e, he⟩
          exact Except.noConfusion he
        · intro h
          rcases h with h | ⟨p', hp', hm', hd'⟩
          · exact Option.noConfusion h
          · have : p' = p := (Option.some.inj hp').symm
            subst this
            exact absurd (buildProgression_eq_nil_iff.mpr
              (mainLines_eq_nil_iff.mpr ⟨hm', hd'⟩)) hp
      · intro e he
        exact Except.noConfusion he

/-- Claim C3 witness: at the concrete no-measures score the left-to-right
direction of the characterization fires. -/
theorem claim3_witness :
    (targets scoreLoose).find? partHasChords = none ∨
      ∃ p, (targets scoreLoose).find? partHasChords = some p ∧ p.measures = [] ∧
        detectTimeSignature p = none :=
  (claim3 scoreLoose none).1.mp ⟨noChordsMsg, by decide⟩

/-- Members of an enumeration carry indices below the end. -/
theorem mem_enumFrom_lt {α : Type} {l : List α} :
    ∀ {n : Nat} {ke : Nat × α}, ke ∈ l.enumFrom n → ke.1 < n + l.length := by
  induction l with
  | nil =>
    intro n ke h
    cases h
  | cons a rest ih =>
    intro n ke h
    rw [List.enumFrom] at h
    rcases List.mem_cons.mp h with h1 | h1
    · subst h1
      simp only [List.length_cons]
      omega
    · have := ih h1
      simp only [List.length_cons]
      omega

/-- Every ending index lies inside the measure list. -/
theorem endingIndices_lt {ms : List Measure} {f : Nat}
    (h : f ∈ endingIndices ms) : f < ms.length := by
  unfold endingIndices at h
  rcases List.mem_map.mp h with ⟨im, him, hf⟩
  have him2 := (List.mem_filter.mp him).1
  have hlt := mem_enumFrom_lt him2
  omega

/-- Unfolding equation of the assembled line list. -/
theorem mainLines_eq (p : Part) :
    mainLines p =
      (match detectTimeSignature p with
       | some t => [t]
       | none => []) ++
      progLoop (decide (endingIndices p.measures ≠ []))
        (match (endingIndices p.measures).head? with
         | some i => (i : Int)
         | none => -1)
        (syntheticEndings p.measures) 0 ⟨detectTimeSignature p, false, false⟩
        p.measures := rfl

/-- Counting facts about the optional leading time-signature line. -/
theorem optTs_counts (p : Part) :
    ((match detectTimeSignature p with
      | some t => [t]
      | none => ([] : List Str))).countP isBarish = 0 ∧
    countTok openRep
      (match detectTimeSignature p with
       | some t => [t]
       | none => ([] : List Str)) = 0 ∧
    countTok closeRep
      (match detectTimeSignature p with
       | some t => [t]
       | none => ([] : List Str)) = 0 := by
  rcases hd : detectTimeSignature p with _ | t
  · exact ⟨rfl, rfl, rfl⟩
  · have h := hdr_not_structural (Or.inl (detectTimeSignature_head hd))
    unfold countTok
    refine ⟨?_, ?_, ?_⟩ <;> simp [List.countP_cons, h.1, h.2.1, h.2.2]

/-- Claim C4 (amended): in a part where the ending heuristic fires first at
a measure index of at least one, and whose measures produce no repeat
tokens from their own barlines and no brace-like chord groups, the
progression holds exactly one repeat-open token, placed before any bar
separator, and exactly one repeat-close token, placed after exactly
first-ending-index many bar separators (the suffix position of the measure
preceding the first ending). -/
theorem claim4 (p : Part) (f : Nat)
    (hfst : (endingIndices p.measures).head? = some f)
    (hf : 1 ≤ f)
    (hbar : ∀ m ∈ p.measures, openRep ∉ (barlineTokens m).1 ∧ closeRep ∉ (barlineTokens m).2)
    (hch : ∀ m ∈ p.measures,
      joinSp (measureChords m) ∉ ([openRep, closeRep, barSep, finalBar] : List Str)) :
    countTok openRep (progressionTokens p) = 1 ∧
    countTok closeRep (progressionTokens p) = 1 ∧
    (∃ U V, progressionTokens p = U ++ openRep :: V ∧ U.countP isBarish = 0) ∧
    (∃ U V, progressionTokens p = U ++ closeRep :: V ∧ U.countP isBarish = f) := by
  have hne : endingIndices p.measures ≠ [] := by
    intro h0
    rw [h0] at hfst
    cases hfst
  have hfb : decide (endingIndices p.measures ≠ []) = true := decide_eq_true hne
  have hfmem : f ∈ endingIndices p.measures := by
    cases he : endingIndices p.measures with
    | nil => rw [he] at hfst; cases hfst
    | cons a l =>
      rw [he] at hfst
      have : a = f := by simpa using hfst
      subst this
      exact List.mem_cons_self _ _
  have hflen : f < p.measures.length := endingIndices_lt hfmem
  have hmsne : p.measures ≠ [] := by
    intro h0
    rw [h0] at hflen
    simp at hflen
  have hsynth : ∀ ke ∈ syntheticEndings p.measures, (ke : Nat × Str).2.head? = some 'N' :=
    fun _ hke => syntheticEndings_head hke
  have hML : mainLines p =
      (match detectTimeSignature p with
       | some t => [t]
       | none => ([] : List Str)) ++
      progLoop true (f : Int) (syntheticEndings p.measures) 0
        ⟨detectTimeSignature p, false, false⟩ p.measures := by
    rw [mainLines_eq p, hfst, hfb]
  obtain ⟨m0, rest, hms⟩ : ∃ m0 rest, p.measures = m0 :: rest := by
    cases hm : p.measures with
    | nil =>
      rw [hm] at hflen
      simp at hflen
    | cons a l => exact ⟨a, l, rfl⟩
  have hbarC : ∀ m ∈ m0 :: rest,
      openRep ∉ (barlineTokens m).1 ∧ closeRep ∉ (barlineTokens m).2 := hms ▸ hbar
  have hchC : ∀ m ∈ m0 :: rest,
      joinSp (measureChords m) ∉ ([openRep, closeRep, barSep, finalBar] : List Str) :=
    hms ▸ hch
  obtain ⟨V, hVeq, hVcnt, hVbar, hUbar, hUcnt⟩ :=
    @progLoop_open_decomp true (f : Int) (syntheticEndings p.measures) hsynth rfl m0 rest
      ⟨detectTimeSignature p, false, false⟩ hbarC hchC rfl
  rw [← hms] at hVeq
  have hoptc := optTs_counts p
  have hdecomp1 : mainLines p =
      ((match detectTimeSignature p with
        | some t => [t]
        | none => ([] : List Str)) ++
        (headerToks (syntheticEndings p.measures) 0 ⟨detectTimeSignature p, false, false⟩ m0 ++
          (barlineTokens m0).1)) ++ openRep :: V := by
    rw [hML, hVeq]
    simp [List.append_assoc]
  obtain ⟨U', V', hEq', hCnt', hU'0, hV'0, hbarV'⟩ :=
    progLoop_close_decomp hsynth hf rfl p.measures 0
      ⟨detectTimeSignature p, false, false⟩ hbar hch rfl (Nat.zero_le _) (by omega)
  have hdecomp2 : mainLines p =
      ((match detectTimeSignature p with
        | some t => [t]
        | none => ([] : List Str)) ++ U') ++ closeRep :: V' := by
    rw [hML, hEq']
    simp [List.append_assoc]
  have hq1 : ((fun t => t == openRep) : Str → Bool) barSep =
      ((fun t => t == openRep) : Str → Bool) finalBar := by decide
  have hq2 : ((fun t => t == closeRep) : Str → Bool) barSep =
      ((fun t => t == closeRep) : Str → Bool) finalBar := by decide
  have hmainBar : barSep ∈ mainLines p := mainLines_mem_barSep hmsne
  refine ⟨?_, ?_, ?_, ?_⟩
  · show countTok openRep (finalizeLines (mainLines p)) = 1
    unfold countTok
    rw [finalizeLines_countP _ hq1 hmainBar, hdecomp1]
    have h1 := hoptc.2.1
    have h2 := hUcnt
    have h3 := hVcnt
    unfold countTok at h1 h2 h3
    rw [List.countP_append, List.countP_cons, List.countP_append, h1, h2, h3]
    decide
  · show countTok closeRep (finalizeLines (mainLines p)) = 1
    unfold countTok
    rw [finalizeLines_countP _ hq2 hmainBar, hdecomp2]
    have h1 := hoptc.2.2
    have h2 := hU'0
    have h3 := hV'0
    unfold countTok at h1 h2 h3
    rw [List.countP_append, List.countP_cons, List.countP_append, h1, h2, h3]
    decide
  · obtain ⟨V2, hV2eq, _⟩ :=
      @finalizeLines_decomp
        ((match detectTimeSignature p with
          | some t => [t]
          | none => ([] : List Str)) ++
          (headerToks (syntheticEndings p.measures) 0 ⟨detectTimeSignature p, false, false⟩ m0 ++
            (barlineTokens m0).1)) V openRep hVbar
    refine ⟨(match detectTimeSignature p with
      | some t => [t]
      | none => ([] : List Str)) ++
      (headerToks (syntheticEndings p.measures) 0 ⟨detectTimeSignature p, false, false⟩ m0 ++
        (barlineTokens m0).1), V2, ?_, ?_⟩
    · show finalizeLines (mainLines p) = _
      rw [hdecomp1, hV2eq]
    · rw [List.countP_append, hoptc.1, hUbar]
  · obtain ⟨V2, hV2eq, _⟩ :=
      @finalizeLines_decomp
        ((match detectTimeSignature p with
          | some t => [t]
          | none => ([] : List Str)) ++ U') V' closeRep hbarV'
    refine ⟨(match detectTimeSignature p with
      | some t => [t]
      | none => ([] : List Str)) ++ U', V2, ?_, ?_⟩
    · show finalizeLines (mainLines p) = _
      rw [hdecomp2, hV2eq]
    · rw [List.countP_append, hoptc.1, hCnt']
      omega

/-- A text element whose content is the ending label "1.". -/
def textOne : TextEl := ⟨some "1.".toList, none, none, none, []⟩

/-- A measure carrying only the ending label "1.". -/
def measEnd1 : Measure := ⟨[], [], none, none, [textOne], [], [], none, none⟩

/-- A part whose very first measure triggers the ending heuristic. -/
def partEndFirst : Part := ⟨none, [measEnd1, measC], []⟩

/-- A part with the ending heuristic firing first at measure index two. -/
def partC4 : Part := ⟨none, [measC, measC, measEnd1], []⟩

/-- Claim C4, counterexample: when the first ending measure is measure
zero, the ending heuristic fires and no measure carries a repeat barline,
yet the progression holds one repeat-open and zero repeat-close tokens. -/
theorem claim4_cex :
    endingIndices partEndFirst.measures = [0] ∧
    (∀ m ∈ partEndFirst.measures, barlineTokens m = ([], [])) ∧
    countTok openRep (progressionTokens partEndFirst) = 1 ∧
    countTok closeRep (progressionTokens partEndFirst) = 0 := by decide

/-- Claim C4 witness at the three-measure part with the ending at index
two. -/
theorem claim4_witness :
    countTok openRep (progressionTokens partC4) = 1 ∧
    countTok closeRep (progressionTokens partC4) = 1 ∧
    (∃ U V, progressionTokens partC4 = U ++ openRep :: V ∧ U.countP isBarish = 0) ∧
    (∃ U V, progressionTokens partC4 = U ++ closeRep :: V ∧ U.countP isBarish = 2) :=
  claim4 partC4 2 (by decide) (by decide) (by decide) (by decide)

/-- Splitting a string without the separator yields one field. -/
theorem splitEq_no_eq {xs : Str} (h : '=' ∉ xs) : splitEq xs = [xs] := by
  induction xs with
  | nil => rfl
  | cons c cs ih =>
    have hc : ¬ (c = '=') := fun he => h (he ▸ List.mem_cons_self c cs)
    have hcs : '=' ∉ cs := fun hm => h (List.mem_cons_of_mem c hm)
    rw [splitEq, if_neg hc, ih hcs]

/-- Splitting peels one separator-free field before a separator. -/
theorem splitEq_append {xs : Str} (rest : Str) (h : '=' ∉ xs) :
    splitEq (xs ++ '=' :: rest) = xs :: splitEq rest := by
  induction xs with
  | nil =>
    show splitEq ('=' :: rest) = [] :: splitEq rest
    rw [splitEq, if_pos rfl]
  | cons c cs ih =>
    have hc : ¬ (c = '=') := fun he => h (he ▸ List.mem_cons_self c cs)
    have hcs : '=' ∉ cs := fun hm => h (List.mem_cons_of_mem c hm)
    rw [List.cons_append, splitEq, if_neg hc, ih hcs]

/-- Taking until a failing element stops inside or at the separator. -/
theorem takeWhile_append_stop {p : Char → Bool} {x : Char} (A B : Str) (hx : p x = false) :
    (A ++ x :: B).takeWhile p = A.takeWhile p := by
  induction A with
  | nil => simp [List.takeWhile_cons, hx]
  | cons a A ih =>
    rw [List.cons_append, List.takeWhile_cons, List.takeWhile_cons]
    by_cases ha : p a = true
    · rw [if_pos ha, if_pos ha, ih]
    · rw [if_neg ha, if_neg ha]

/-- Taking while a predicate that holds everywhere keeps the string. -/
theorem takeWhile_all {p : Char → Bool} {A : Str} (h : ∀ c ∈ A, p c = true) :
    A.takeWhile p = A := by
  induction A with
  | nil => rfl
  | cons a A ih =>
    rw [List.takeWhile_cons, if_pos (h a (List.mem_cons_self a A))]
    rw [ih (fun c hc => h c (List.mem_cons_of_mem a hc))]

/-- Every character of a percent-encoded string is unreserved, a percent
sign, or a hexadecimal digit. -/
theorem pctEncode_chars {s : Str} :
    ∀ c ∈ pctEncode s, isUnreserved c = true ∨ c = '%' ∨ isHexDig c = true := by
  intro c hc
  rcases List.mem_flatMap.mp hc with ⟨c0, _, hin⟩
  unfold encChar at hin
  split at hin
  · left
    have : c = c0 := by simpa using hin
    subst this
    assumption
  · rcases List.mem_flatMap.mp hin with ⟨b, hb, hmem⟩
    have hblt : b < 256 := utf8Bytes_lt _ (charToNatLt c0) b hb
    rcases List.mem_cons.mp hmem with h1 | h1
    · exact Or.inr (Or.inl h1)
    · rcases List.mem_cons.mp h1 with h2 | h2
      · subst h2
        exact Or.inr (Or.inr (isHexDig_hexDig _ (by omega)))
      · have : c = hexDig (b % 16) := by simpa using h2
        subst this
        exact Or.inr (Or.inr (isHexDig_hexDig _ (by omega)))

/-- Claim C5: for a selected chord-bearing part with a non-empty
progression, and fields free of the equals sign, the raw URL is the
protocol prefix plus six equals-delimited fields with the literal n fifth,
the encoded URL is its percent-encoding over exactly the unreserved set,
and percent-decoding recovers the raw string. -/
theorem claim5 (s : Score) (st : Option Str) (p : Part)
    (hfind : (targets s).find? partHasChords = some p)
    (hprog : ¬ (buildProgression p = []))
    (hT : '=' ∉ titleForIreal (metaTitle s))
    (hC : '=' ∉ composerLastFirst (metaComposer s))
    (hS : '=' ∉ styleText st)
    (hK : '=' ∉ detectKeyToken s.keyName)
    (hP : '=' ∉ buildProgression p) :
    scoreToIrealproRawUrl s st = Except.ok (rawUrlStr s st p) ∧
    scoreToIrealproUrl s st = Except.ok (pctEncode (rawUrlStr s st p)) ∧
    (∀ c ∈ pctEncode (rawUrlStr s st p),
      isUnreserved c = true ∨ c = '%' ∨ isHexDig c = true) ∧
    pctDecode (pctEncode (rawUrlStr s st p)) = rawUrlStr s st p ∧
    splitEq ((pctDecode (pctEncode (rawUrlStr s st p))).drop 12) =
      [titleForIreal (metaTitle s), composerLastFirst (metaComposer s), styleText st,
        detectKeyToken s.keyName, ['n'], buildProgression p] ∧
    (splitEq ((pctDecode (pctEncode (rawUrlStr s st p))).drop 12)).length = 6 := by
  have hsplit : splitEq ((rawUrlStr s st p).drop 12) =
      [titleForIreal (metaTitle s), composerLastFirst (metaComposer s), styleText st,
        detectKeyToken s.keyName, ['n'], buildProgression p] := by
    have hdrop : (rawUrlStr s st p).drop 12 =
        titleForIreal (metaTitle s) ++ '=' :: (composerLastFirst (metaComposer s) ++ '=' ::
          (styleText st ++ '=' :: (detectKeyToken s.keyName ++ '=' :: 'n' :: '=' ::
            buildProgression p))) := by
      unfold rawUrlStr
      simp only [List.cons_append, List.nil_append, List.append_assoc]
      rfl
    rw [hdrop]
    rw [splitEq_append _ hT, splitEq_append _ hC, splitEq_append _ hS, splitEq_append _ hK,
      show ('n' :: '=' :: buildProgression p : Str) = ['n'] ++ '=' :: buildProgression p
        from rfl,
      splitEq_append _ (by decide), splitEq_no_eq hP]
  refine ⟨?_, ?_, pctEncode_chars, pctDecode_pctEncode _, ?_, ?_⟩
  · unfold scoreToIrealproRawUrl
    rw [hfind]
    dsimp only
    rw [if_neg hprog]
  · unfold scoreToIrealproUrl
    rw [hfind]
    dsimp only
    rw [if_neg hprog]
  · rw [pctDecode_pctEncode]
    exact hsplit
  · rw [pctDecode_pctEncode, hsplit]
    rfl

/-- A score with one part holding a single C measure. -/
def scoreC : Score := ⟨[partC], partEmpty, none, none⟩

/-- Claim C5 witness at the one-measure score. -/
theorem claim5_witness :
    scoreToIrealproRawUrl scoreC none = Except.ok (rawUrlStr scoreC none partC) ∧
    scoreToIrealproUrl scoreC none = Except.ok (pctEncode (rawUrlStr scoreC none partC)) ∧
    (∀ c ∈ pctEncode (rawUrlStr scoreC none partC),
      isUnreserved c = true ∨ c = '%' ∨ isHexDig c = true) ∧
    pctDecode (pctEncode (rawUrlStr scoreC none partC)) = rawUrlStr scoreC none partC ∧
    splitEq ((pctDecode (pctEncode (rawUrlStr scoreC none partC))).drop 12) =
      [titleForIreal (metaTitle scoreC), composerLastFirst (metaComposer scoreC),
        styleText none, detectKeyToken scoreC.keyName, ['n'], buildProgression partC] ∧
    (splitEq ((pctDecode (pctEncode (rawUrlStr scoreC none partC))).drop 12)).length = 6 :=
  claim5 scoreC none partC (by decide) (by decide) (by decide) (by decide) (by decide)
    (by decide) (by decide)

/-- Tokens produced by the dedup accumulator never sit in the seen list. -/
theorem not_mem_seen_of_mem_dedupAux :
    ∀ {seen ts : List Str} {x : Str}, x ∈ dedupAux seen ts → x ∉ seen := by
  intro seen ts
  induction ts generalizing seen with
  | nil => intro x hx; cases hx
  | cons t ts ih =>
    intro x hx
    rw [dedupAux] at hx
    by_cases h : t ∈ seen
    · rw [if_pos h] at hx
      exact ih hx
    · rw [if_neg h] at hx
      rcases List.mem_cons.mp hx with rfl | hx2
      · exact h
      · intro hxs
        exact ih hx2 (List.mem_cons_of_mem t hxs)

/-- The dedup accumulator emits no duplicates. -/
theorem dedupAux_nodup (seen ts : List Str) : (dedupAux seen ts).Nodup := by
  induction ts generalizing seen with
  | nil => exact List.nodup_nil
  | cons t ts ih =>
    rw [dedupAux]
    by_cases h : t ∈ seen
    · rw [if_pos h]
      exact ih seen
    · rw [if_neg h]
      refine List.nodup_cons.mpr ⟨fun hmem => ?_, ih (t :: seen)⟩
      exact not_mem_seen_of_mem_dedupAux hmem (List.mem_cons_self t seen)

/-- The dedup accumulator keeps tokens in their original order. -/
theorem dedupAux_sublist (seen ts : List Str) : List.Sublist (dedupAux seen ts) ts := by
  induction ts generalizing seen with
  | nil => exact List.Sublist.refl _
  | cons t ts ih =>
    rw [dedupAux]
    by_cases h : t ∈ seen
    · rw [if_pos h]
      exact (ih seen).cons t
    · rw [if_neg h]
      exact (ih (t :: seen)).cons₂ t

/-- Membership through the dedup accumulator. -/
theorem mem_dedupAux_iff (seen ts : List Str) (x : Str) :
    x ∈ dedupAux seen ts ↔ x ∈ ts ∧ x ∉ seen := by
  induction ts generalizing seen with
  | nil => simp [dedupAux]
  | cons t ts ih =>
    rw [dedupAux]
    by_cases h : t ∈ seen
    · rw [if_pos h, ih]
      constructor
      · rintro ⟨hx, hs⟩
        exact ⟨List.mem_cons_of_mem t hx, hs⟩
      · rintro ⟨hx, hs⟩
        rcases List.mem_cons.mp hx with rfl | hx2
        · exact absurd h hs
        · exact ⟨hx2, hs⟩
    · rw [if_neg h, List.mem_cons, ih]
      constructor
      · rintro (rfl | ⟨hx, hs⟩)
        · exact ⟨List.mem_cons_self _ _, h⟩
        · exact ⟨List.mem_cons_of_mem t hx, fun hxs => hs (List.mem_cons_of_mem t hxs)⟩
      · rintro ⟨hx, hs⟩
        rcases List.mem_cons.mp hx with rfl | hx2
        · exact Or.inl rfl
        · by_cases hxt : x = t
          · exact Or.inl hxt
          · exact Or.inr ⟨hx2, fun hxs => (List.mem_cons.mp hxs).elim hxt hs⟩

/-- Deduplication never changes which tokens occur. -/
theorem mem_dedupFirst (t : Str) (L : List Str) : t ∈ dedupFirst L ↔ t ∈ L := by
  rw [dedupFirst, mem_dedupAux_iff]
  simp

/-- Claim C6 (amended): the chord tokens of a measure are duplicate-free;
when some chord-symbol annotation yields a token the symbol tokens are used
exclusively, and otherwise (also when annotations are present but all of
them degenerate to no token) the stacked-chord roots are used; in either
case the result is the deduplication of that source list, an
order-preserving sublist with the same membership. -/
theorem claim6 (m : Measure) :
    (measureChords m).Nodup ∧
    (m.chordSymbols.filterMap symbolToken ≠ [] →
      measureChords m = dedupFirst (m.chordSymbols.filterMap symbolToken) ∧
      List.Sublist (measureChords m) (m.chordSymbols.filterMap symbolToken) ∧
      (∀ t, t ∈ measureChords m ↔ t ∈ m.chordSymbols.filterMap symbolToken)) ∧
    (m.chordSymbols.filterMap symbolToken = [] →
      measureChords m =
        dedupFirst (m.chords.filterMap (fun c => (stackedToken c).map (replaceChar '-' 'b'))) ∧
      List.Sublist (measureChords m)
        (m.chords.filterMap (fun c => (stackedToken c).map (replaceChar '-' 'b'))) ∧
      (∀ t, t ∈ measureChords m ↔
        t ∈ m.chords.filterMap (fun c => (stackedToken c).map (replaceChar '-' 'b')))) := by
  have hEq : measureChords m =
      if m.chordSymbols.filterMap symbolToken ≠ [] then
        dedupFirst (m.chordSymbols.filterMap symbolToken)
      else
        dedupFirst (m.chords.filterMap (fun c => (stackedToken c).map (replaceChar '-' 'b'))) :=
    rfl
  by_cases h : m.chordSymbols.filterMap symbolToken = []
  · rw [hEq, if_neg (fun hne => hne h)]
    refine ⟨dedupAux_nodup _ _, fun hne => absurd h hne, fun _ => ⟨rfl, ?_, ?_⟩⟩
    · exact dedupAux_sublist _ _
    · intro t
      exact mem_dedupFirst t _
  · rw [hEq, if_pos h]
    refine ⟨dedupAux_nodup _ _, fun _ => ⟨rfl, ?_, ?_⟩, fun h0 => absurd h0 h⟩
    · exact dedupAux_sublist _ _
    · intro t
      exact mem_dedupFirst t _

/-- A chord-symbol annotation whose every attribute is empty or absent. -/
def csDegenerate : ChordSymbol := ⟨[], none, [], none, none⟩

/-- A measure holding one degenerate chord-symbol annotation next to one
stacked C chord. -/
def measDegen : Measure :=
  ⟨[csDegenerate], [⟨some "C".toList, none, none⟩], none, none, [], [], [], none, none⟩

theorem claim6_cex :
    measDegen.chordSymbols ≠ [] ∧
    measDegen.chordSymbols.filterMap symbolToken = [] ∧
    measureChords measDegen = [['C']] := by decide

/-- A chord-symbol annotation with figure C. -/
def csC : ChordSymbol := ⟨"C".toList, none, [], none, none⟩

/-- A measure with two identical C chord-symbol annotations. -/
def measDup : Measure := ⟨[csC, csC], [], none, none, [], [], [], none, none⟩

theorem claim6_witness :
    (measureChords measDup).Nodup ∧
    measureChords measDup = dedupFirst (measDup.chordSymbols.filterMap symbolToken) ∧
    List.Sublist (measureChords measDup) (measDup.chordSymbols.filterMap symbolToken) ∧
    (∀ t, t ∈ measureChords measDup ↔ t ∈ measDup.chordSymbols.filterMap symbolToken) :=
  ⟨(claim6 measDup).1, (claim6 measDup).2.1 (by decide)⟩

/-- A backward repeat marker on the right edge of a measure. -/
def rbRep : BarlineInfo := ⟨none, some "right".toList, some "backward".toList, none, []⟩

/-- A measure whose backward repeat exists only as a generically-listed
repeat element. -/
def measGenericRep : Measure := ⟨[], [], none, none, [], [], [rbRep], none, none⟩

/-- The same backward repeat attached as the explicit right-barline
attribute. -/
def measExplicitRep : Measure := ⟨[], [], none, none, [], [], [], none, some rbRep⟩

/-- Claim C7: the token rules are applied to the explicit left and right
barline attributes only.  A right-edge backward repeat that is present
solely as a generically-listed element — one the pre-scan itself recognizes
as a backward repeat — contributes no token, while the identical marker
attached as the explicit right barline yields the repeat-close suffix;
indeed the generic element and barline lists never influence the result. -/
theorem claim7 :
    repScanHit rbRep = true ∧
    barlineTokens measGenericRep = ([], []) ∧
    barlineTokens measExplicitRep = ([], [closeRep]) ∧
    (∀ (bs rs : List BarlineInfo),
      barlineTokens ⟨[], [], none, none, [], bs, rs, none, none⟩ = ([], [])) :=
  ⟨by decide, by decide, by decide, fun bs rs => rfl⟩

/-- Claim C8: both encoders are deterministic functions of the score and
style arguments — equal inputs give byte-identical outputs. -/
theorem claim8 (s1 s2 : Score) (st1 st2 : Option Str)
    (hs : s1 = s2) (hst : st1 = st2) :
    scoreToIrealproUrl s1 st1 = scoreToIrealproUrl s2 st2 ∧
    scoreToIrealproRawUrl s1 st1 = scoreToIrealproRawUrl s2 st2 := by
  subst hs
  subst hst
  exact ⟨rfl, rfl⟩

theorem claim8_witness :
    scoreToIrealproUrl scoreC none = scoreToIrealproUrl scoreC none ∧
    scoreToIrealproRawUrl scoreC none = scoreToIrealproRawUrl scoreC none :=
  claim8 scoreC scoreC none none rfl rfl

/-- A measure whose text elements are exactly one element with the given
content string contributes the table matches against that content. -/
theorem staffTextTokens_single (m : Measure) (e : TextEl) (c : Str)
    (hm : m.textEls = [e]) (hsc : staffContent e = some c) :
    staffTextTokens m = dedupFirst (recognizedPhrases.filterMap (fun kv =>
      if containsSub (lowerStr kv.1) (lowerStr c) then some kv.2 else none)) := by
  unfold staffTextTokens
  rw [hm]
  simp only [List.flatMap_cons, List.flatMap_nil, List.append_nil, hsc]

/-- A truthy content attribute is the staff-text content of the element. -/
theorem staffContent_of_content (e : TextEl) (c : Str)
    (hc : e.content = some c) (hne : ¬ (c = [])) : staffContent e = some c := by
  unfold staffContent firstTruthy truthyO
  rw [hc]
  simp only [if_neg hne]

/-- Claim C9: because cue detection is a case-insensitive substring match
of every table phrase, a measure whose single text reads D.C. al Fine
emits both the D.C. al Fine token and the Fine token, and a measure whose
single text reads D.S. al Coda emits both the D.S. al Coda token and the
Coda token, each token once. -/
theorem claim9 (m m2 : Measure) (e e2 : TextEl)
    (hc : e.content = some "D.C. al Fine".toList) (hm : m.textEls = [e])
    (hc2 : e2.content = some "D.S. al Coda".toList) (hm2 : m2.textEls = [e2]) :
    staffTextTokens m = ["<D.C. al Fine>".toList, "<Fine>".toList] ∧
    staffTextTokens m2 = ["<D.S. al Coda>".toList, "<Coda>".toList] := by
  constructor
  · rw [staffTextTokens_single m e _ hm (staffContent_of_content e _ hc (by decide))]
    decide
  · rw [staffTextTokens_single m2 e2 _ hm2 (staffContent_of_content e2 _ hc2 (by decide))]
    decide

/-- A text element reading D.C. al Fine and its measure. -/
def textDC : TextEl := ⟨some "D.C. al Fine".toList, none, none, none, []⟩

def measDC : Measure := ⟨[], [], none, none, [textDC], [], [], none, none⟩

/-- A text element reading D.S. al Coda and its measure. -/
def textDS : TextEl := ⟨some "D.S. al Coda".toList, none, none, none, []⟩

def measDS : Measure := ⟨[], [], none, none, [textDS], [], [], none, none⟩

theorem claim9_witness :
    staffTextTokens measDC = ["<D.C. al Fine>".toList, "<Fine>".toList] ∧
    staffTextTokens measDS = ["<D.S. al Coda>".toList, "<Coda>".toList] :=
  claim9 measDC measDS textDC textDS rfl rfl rfl rfl

/-- Claim C10: on the success path the html link's visible text is the
percent-decoded URL stripped of the protocol and truncated at the first
equals sign, html-escaped, with an empty extraction replaced by Untitled;
when the normalized title holds no equals sign the truncation is the whole
normalized title. -/
theorem claim10 (s : Score) (st : Option Str) (p : Part)
    (hf : (targets s).find? partHasChords = some p)
    (hprog : ¬ (buildProgression p = [])) :
    scoreToIrealproHtmlLink s st = Except.ok (
      "<a href=\"".toList ++ pctEncode (rawUrlStr s st p) ++ "\">".toList ++
      htmlEscape (if (titleForIreal (metaTitle s)).takeWhile (fun c => c ≠ '=') = []
        then "Untitled".toList
        else (titleForIreal (metaTitle s)).takeWhile (fun c => c ≠ '=')) ++
      "</a>".toList) ∧
    ('=' ∉ titleForIreal (metaTitle s) →
      (titleForIreal (metaTitle s)).takeWhile (fun c => c ≠ '=') =
        titleForIreal (metaTitle s)) := by
  have hdrop : (rawUrlStr s st p).drop ("irealbook://".toList).length =
      titleForIreal (metaTitle s) ++ '=' :: (composerLastFirst (metaComposer s) ++ '=' ::
        (styleText st ++ '=' :: (detectKeyToken s.keyName ++ '=' :: 'n' :: '=' ::
          buildProgression p))) := by
    unfold rawUrlStr
    simp only [List.cons_append, List.nil_append, List.append_assoc]
    rfl
  constructor
  · unfold scoreToIrealproHtmlLink scoreToIrealproUrl
    rw [hf]
    dsimp only
    rw [if_neg hprog]
    dsimp only
    rw [pctDecode_pctEncode, hdrop,
      takeWhile_append_stop _ _ (by decide)]
  · intro hT
    exact takeWhile_all (fun c hc => decide_eq_true (fun he => hT (he ▸ hc)))

theorem claim10_witness :
    scoreToIrealproHtmlLink scoreC none = Except.ok (
      "<a href=\"".toList ++ pctEncode (rawUrlStr scoreC none partC) ++ "\">".toList ++
      htmlEscape (if (titleForIreal (metaTitle scoreC)).takeWhile (fun c => c ≠ '=') = []
        then "Untitled".toList
        else (titleForIreal (metaTitle scoreC)).takeWhile (fun c => c ≠ '=')) ++
      "</a>".toList) ∧
    ('=' ∉ titleForIreal (metaTitle scoreC) →
      (titleForIreal (metaTitle scoreC)).takeWhile (fun c => c ≠ '=') =
        titleForIreal (metaTitle scoreC)) :=
  claim10 scoreC none partC (by decide) (by decide)

end Notare
